import Mathlib

/-!
Shallow embedding of `src/murker.py`, a minimal entity-component simulation:
entities are integer ids, and a `World` value carries the global registries
that the Python module keeps in class attributes (`Entity.entity_index` as
`ents`, `Entity.component_index` as `buckets`, `Entity.id_counter` as
`nextId`) together with an explicit oracle for the `random` module (`rng`).

Modelling decisions, each noted again at the definition it concerns:
* `print` narration and the `DEBUG` trace are not part of the state; the
  per-component delivery trace of `Entity.update` is returned explicitly,
  modelling the `debug(...)` line emitted before each component update
  (plus a flag recording whether that component returned `None`).
* `random.uniform(0.0, 1.0) < p` inside `chance` is decided by the next
  boolean of the world's oracle stream; the probability argument is carried
  but the comparison outcome comes from the oracle.
* `Point` is collapsed to its single integer coordinate.
* Python would raise an exception (AttributeError / KeyError / failed
  assert) in a few situations that this program never reaches; the embedding
  makes those branches inert no-ops and marks each with a comment.
-/

namespace Murker

/-- The concrete component classes of the catalog, i.e. the possible values
of `type(c)` for an attached component `c`. -/
inductive CompType
  | nameable | position | destructible | attacker | defender | actor
deriving DecidableEq, Fintype

/-- A component together with its mutable state.  `Actor`'s controller is
always a `BerserkAI` instance in this program, so it carries no data. -/
inductive Component
  | nameable (name : String)
  | position (x : Int)
  | destructible (max_hp : Int) (hp : Int)
  | attacker (accuracy : Rat) (damage : Int)
  | defender (evasion : Rat)
  | actor
deriving DecidableEq

/-- The concrete class of a component (`type(c)` in Python). -/
def ctype : Component → CompType
  | .nameable _ => .nameable
  | .position _ => .position
  | .destructible _ _ => .destructible
  | .attacker _ _ => .attacker
  | .defender _ => .defender
  | .actor => .actor

/-- The closed set of event classes: `Turn`, `Move(destination)`,
`Attack(damage)`. -/
inductive Event
  | turn
  | move (destination : Int)
  | attack (damage : Int)
deriving DecidableEq

/-- First-match association-list lookup; models Python dict indexing
(`entity_index[id]`, `component_index[type]`).  Keys are unique in every
reachable world, so first-match agrees with dict semantics. -/
def lookupA {α β : Type} [DecidableEq α] : List (α × β) → α → Option β
  | [], _ => none
  | p :: r, k => if p.1 = k then some p.2 else lookupA r k

/-- Replace the value stored under key `k`; models `dict[k] = v` for a key
that is already present. -/
def setA {α β : Type} [DecidableEq α] (l : List (α × β)) (k : α) (v : β) :
    List (α × β) :=
  l.map (fun p => if p.1 = k then (k, v) else p)

/-- The global state of the module: `Entity.id_counter`, the id-keyed entity
registry (each entity's ordered component list), the type-index
`Entity.component_index`, and the oracle stream feeding `chance`. -/
structure World where
  nextId : Nat
  ents : List (Nat × List Component)
  buckets : List (CompType × List Nat)
  rng : List Bool
deriving DecidableEq

/-- The component list of entity `e` (attachment order).  A Python lookup of
an id that was never registered would fail; the model answers `[]`, which no
reachable call site distinguishes. -/
def getComps (w : World) (e : Nat) : List Component :=
  (lookupA w.ents e).getD []

/-- Replace entity `e`'s component list wholesale. -/
def setEnt (w : World) (e : Nat) (cs : List Component) : World :=
  { w with ents := setA w.ents e cs }

/-- Overwrite the component at position `i` of entity `e`; models a component
instance mutating its own fields (`self.point = ...`, `self.hp = ...`). -/
def setComp (w : World) (e i : Nat) (c : Component) : World :=
  setEnt w e ((getComps w e).set i c)

/-- The type-index bucket for `t` (`Entity.component_index.get(t, [])`),
which is also `Entity.filter(t)`. -/
def bucketGet (w : World) (t : CompType) : List Nat :=
  (lookupA w.buckets t).getD []

/-- `Entity.filter`: the list of entities currently indexed under `t`. -/
def filterE (w : World) (t : CompType) : List Nat :=
  bucketGet w t

/-- Append `e` to the bucket for `t`, creating the bucket first when absent
(`if type not in component_index: component_index[type] = []` then
`append`). -/
def bucketAppend (w : World) (t : CompType) (e : Nat) : World :=
  match lookupA w.buckets t with
  | none => { w with buckets := w.buckets ++ [(t, [e])] }
  | some l => { w with buckets := setA w.buckets t (l ++ [e]) }

/-- Remove the first occurrence of `e` from the bucket for `t`
(`component_index[component_type].remove(self)`).  A missing bucket would be
a Python `KeyError`; `detach` only calls this after finding a component of
type `t`, which implies the bucket was created by `attach`. -/
def bucketErase (w : World) (t : CompType) (e : Nat) : World :=
  match lookupA w.buckets t with
  | none => w
  | some l => { w with buckets := setA w.buckets t (l.erase e) }

/-- `Entity.attach`: append the component to the entity's list and the entity
to the type-index bucket of the component's concrete type.  (`set_owner` is
implicit: ownership is the registry key `e`.) -/
def attach (w : World) (e : Nat) (c : Component) : World :=
  bucketAppend (setEnt w e (getComps w e ++ [c])) (ctype c) e

/-- Position of the first list element satisfying `p`; the scan performed by
`for c in self.components: if isinstance(c, component_type)`. -/
def firstIdx {α : Type} (p : α → Bool) : List α → Option Nat
  | [] => none
  | c :: r => if p c then some 0 else (firstIdx p r).map (· + 1)

/-- `Entity.detach`: drop the first component whose class matches
`component_type` and remove the entity from that type's index bucket.  The
Python test is `isinstance`; every catalog class is a leaf subclass of
`Component`, so for the types this program detaches it coincides with an
exact `ctype` match. -/
def detach (w : World) (e : Nat) (t : CompType) : World :=
  match firstIdx (fun c => ctype c == t) (getComps w e) with
  | none => w
  | some j => bucketErase (setEnt w e ((getComps w e).eraseIdx j)) t e

/-- `Entity.get_component`: the first attached component whose class is
exactly `t`, or `None`. -/
def get_component (w : World) (e : Nat) (t : CompType) : Option Component :=
  (getComps w e).find? (fun c => ctype c == t)

/-- `Entity(...)`: allocate the next id, register an empty entity, then
attach the given components in order. -/
def newEntity (w : World) (cs : List Component) : World × Nat :=
  let e := w.nextId
  let w1 : World := { w with nextId := e + 1, ents := w.ents ++ [(e, [])] }
  (cs.foldl (fun acc c => attach acc e c) w1, e)

/-- `chance(p)`: whether `random.uniform(0.0, 1.0) < p`.  The outcome is the
next boolean of the oracle stream (an exhausted oracle answers `false`;
every theorem below supplies an oracle long enough for the run it makes). -/
def chance (w : World) (_p : Rat) : Bool × World :=
  (w.rng.headI, { w with rng := w.rng.tail })

/-- Drop one oracle sample; `(chance w p).2` definitionally. -/
def rngTail (w : World) : World :=
  { w with rng := w.rng.tail }

/-- `sign(x)`: `-1` for negative arguments, `1` otherwise (also for `0`). -/
def sign (x : Int) : Int :=
  if x < 0 then -1 else 1

/-- `Destructible.__init__(max_hp, hp=None)`: `self.hp = hp or self.max_hp`,
so both an omitted `hp` and a falsy `hp == 0` are replaced by `max_hp`. -/
def mkDestructible (max_hp : Int) (hp : Option Int) : Component :=
  .destructible max_hp
    (match hp with
     | none => max_hp
     | some h => if h = 0 then max_hp else h)

/-- `Destructible.alive`: `hp > 0`, read off a component value. -/
def aliveC : Component → Bool
  | .destructible _ hp => hp > 0
  | _ => false

/-- `Destructible.modify_hp` for the destructible instance sitting at
position `i` of entity `e`, whose current state is `(m, h)`: return early if
already dead, clamp the new hp at `max_hp` from above, and on death detach
the owner's `Actor`.  The hp narration and the death message are `print`
output, outside the model. -/
def modify_hp (w : World) (e i : Nat) (m h amount : Int) : World :=
  if h > 0 then
    let hp2 := min (h + amount) m
    let w1 := setComp w e i (.destructible m hp2)
    if hp2 ≤ 0 then detach w1 e .actor else w1
  else w

/-- One component update inside `Entity.update`'s fold: component `c` (the
one currently at position `i` of entity `e`) receives the current event and
returns the new world plus either the event to pass on or `none` (Python
`None`) to short-circuit.  Cases, against the source:
* `Component.update` (inherited default): return the event unchanged;
* `Position.update` on `Move`: replace the coordinate, pass through;
* `Destructible.update` on `Attack`: `modify_hp(-damage)`, pass through
  (there is no `Turn` case in the source);
* `Defender.update` on `Attack`: sample evasion; on success return `None`;
* `Actor.update` on `Turn`: run the controller (`actF`, the `BerserkAI`
  strategy, abstracted so the fold can be defined before the controller),
  pass through. -/
def stepComp (actF : World → Nat → World) (w : World) (e i : Nat)
    (c : Component) (ev : Event) : World × Option Event :=
  match c, ev with
  | .position _, .move dest => (setComp w e i (.position dest), some ev)
  | .destructible m h, .attack dmg => (modify_hp w e i m h (-dmg), some ev)
  | .defender p, .attack _ =>
      let r := chance w p
      if r.1 then (r.2, none) else (r.2, some ev)
  | .actor, .turn => (actF w e, some ev)
  | _, _ => (w, some ev)

/-- The `for c in self.components` loop of `Entity.update`, iterated the way
a Python list iterator works: position `i` is read from the *live* list each
round and the loop ends once `i` reaches the current length.  `fuel` is the
length of the list on entry; since no component update ever lengthens the
list and `i` grows each round, the live length check always fires before the
fuel runs out, so the fuel-exhaustion branch coincides with normal loop
exit.  The third result component is the delivery trace: one `(i, b)` entry
per component visited (the `debug` line), `b` recording whether that
component returned `None`.  The returned `Option Event` models the
function's Python return value: `return` on short-circuit, falling off the
end otherwise — `None` both ways. -/
def updateLoop (actF : World → Nat → World) :
    Nat → World → Nat → Nat → Event → World × Option Event × List (Nat × Bool)
  | 0, w, _, _, _ => (w, none, [])
  | fuel + 1, w, e, i, ev =>
    match (getComps w e).get? i with
    | none => (w, none, [])
    | some c =>
      match stepComp actF w e i c ev with
      | (w1, none) => (w1, none, [(i, true)])
      | (w1, some ev1) =>
        let r := updateLoop actF fuel w1 e (i + 1) ev1
        (r.1, r.2.1, (i, false) :: r.2.2)

/-- The inert controller hook: used for the `Move`/`Attack` dispatches that
`BerserkAI` itself performs, which never reach the `Actor`/`Turn` branch. -/
def trivAct : World → Nat → World := fun w0 _ => w0

/-- `entity.update(event)` as used for the events that `BerserkAI` itself
dispatches (`Attack` to the target, `Move` to self).  Neither event ever
reaches the `Actor`/`Turn` branch, so the controller hook is inert here;
stratifying this way avoids mutual recursion between the fold and the
controller. -/
def updateNoAct (w : World) (e : Nat) (ev : Event) :
    World × Option Event × List (Nat × Bool) :=
  updateLoop trivAct (getComps w e).length w e 0 ev

/-- `Attacker.attack(target)` for attacker entity `atk`: sample accuracy and
on a hit send `Attack(damage)` to the target's `update`; on a miss only
narrate.  An attacker entity without an `Attacker` component would be a
Python AttributeError; this program only calls `attack` through `BerserkAI`
on entities composed with one. -/
def attackF (w : World) (atk tgt : Nat) : World :=
  match get_component w atk .attacker with
  | some (.attacker acc dmg) =>
    if (chance w acc).1 then (updateNoAct (chance w acc).2 tgt (.attack dmg)).1
    else (chance w acc).2
  | _ => w

/-- The candidate list of `BerserkAI.act`: every entity holding an `Actor`,
other than the acting one, whose `Destructible` is alive.  An entity in the
actor bucket without a `Destructible` would crash Python
(`None.alive()`); the model filters it out, a branch no reachable world
exercises since every constructed actor carries a `Destructible`. -/
def enemiesOf (w : World) (me : Nat) : List Nat :=
  (filterE w .actor).filter
    (fun x => decide (x ≠ me) && (get_component w x .destructible).elim false aliveC)

/-- The `x` coordinate of an entity's `Position`, when present. -/
def posOf (w : World) (e : Nat) : Option Int :=
  match get_component w e .position with
  | some (.position x) => some x
  | _ => none

/-- Position coordinate with the (unreachable: Python would have raised
AttributeError) default `0` for entities without a `Position`; used inside
the `closeness` key exactly where the source dereferences
`get_component(Position).point.x`. -/
def posD (w : World) (e : Nat) : Int :=
  (posOf w e).getD 0

/-- Python's `min(enemies, key=closeness)`: fold left keeping the current
best and replacing it only on a strictly smaller key, so the first minimum
encountered wins ties.  `none` on an empty list (Python: ValueError; the
caller checks emptiness first). -/
def pyMinBy (f : Nat → Int) : List Nat → Option Nat
  | [] => none
  | x :: xs => some (xs.foldl (fun best y => if f y < f best then y else best) x)

/-- `BerserkAI.act(me)`: pick the nearest living enemy; attack it when
adjacent, otherwise move one step toward it.  Inert branches, each a Python
exception this program never reaches: missing own `Position`
(AttributeError), empty minimum (guarded), and `diff == 0` (a failed
`assert`). -/
def berserkAct (w : World) (me : Nat) : World :=
  if enemiesOf w me = [] then w
  else
    match posOf w me with
    | none => w
    | some myx =>
      match pyMinBy (fun e2 => |posD w e2 - myx|) (enemiesOf w me) with
      | none => w
      | some closest =>
        if posD w closest - myx = 0 then w
        else if |posD w closest - myx| = 1 then attackF w me closest
        else (updateNoAct w me (.move (myx + sign (posD w closest - myx)))).1

/-- `entity.update(event)`: the component fold with the real controller
(`BerserkAI`) plugged into the `Actor`/`Turn` branch. -/
def update (w : World) (e : Nat) (ev : Event) :
    World × Option Event × List (Nat × Bool) :=
  updateLoop berserkAct (getComps w e).length w e 0 ev

/-- The post-turn cleanup loop of the scheduler:
`for x in turn_order: if not x.get_component(Actor): turn_order.remove(x)`,
with Python's exact iterate-while-mutating behaviour: the iterator keeps a
position `k` into the live list, so removing the element at `k` makes the
following element slide into `k` and be skipped.  `p` is the removal
condition; the fuel (list length on entry) again only expires at loop
exit. -/
def pyRemoveAux (p : Nat → Bool) : Nat → List Nat → Nat → List Nat
  | 0, l, _ => l
  | fuel + 1, l, k =>
    match l.get? k with
    | none => l
    | some x =>
      if p x then pyRemoveAux p fuel (l.erase x) (k + 1)
      else pyRemoveAux p fuel l (k + 1)

/-- Whether the scheduler sees entity `x` as an actor:
`x.get_component(Actor)` is truthy. -/
def hasActor (w : World) (x : Nat) : Bool :=
  (get_component w x .actor).isSome

/-- One iteration of the turn-scheduler `while True` loop. -/
inductive SchedStepResult
  | halt (victor : Nat)
  | next (w : World) (q : List Nat)
  | stuck
deriving DecidableEq

/-- One iteration of the scheduler: pop the front entity, dispatch `Turn` to
it, drop queued entities that lost their `Actor`, then either declare the
victor (empty remainder) or re-enqueue the acting entity at the back.
`stuck` models `turn_order.pop(0)` raising IndexError on an empty queue. -/
def schedStep (w : World) (q : List Nat) : SchedStepResult :=
  match q with
  | [] => .stuck
  | e :: rest =>
    let w1 := (update w e .turn).1
    let rest1 := pyRemoveAux (fun x => !hasActor w1 x) rest.length rest 0
    if rest1.length = 0 then .halt e else .next w1 (rest1 ++ [e])

/-- The current hp of an entity's `Destructible`, when present. -/
def getHp (w : World) (e : Nat) : Option Int :=
  match get_component w e .destructible with
  | some (.destructible _ h) => some h
  | _ => none

/-- Whether the entity's `Destructible` reports `alive()`. -/
def aliveE (w : World) (e : Nat) : Bool :=
  (get_component w e .destructible).elim false aliveC

/-- Entity `e` is registered (its id is a key of `entity_index`). -/
def entExists (w : World) (e : Nat) : Prop :=
  (lookupA w.ents e).isSome = true

/-- The attached component classes of entity `e`, in attachment order. -/
def ctypesOf (w : World) (e : Nat) : List CompType :=
  (getComps w e).map ctype

/-! ### Invariant predicates -/

/-- Entity `e` carries a `Destructible` that is not `alive()`. -/
def deadE (w : World) (e : Nat) : Prop :=
  ∃ m h, Component.destructible m h ∈ getComps w e ∧ h ≤ 0

/-- Every dead entity holds no `Actor` component. -/
def DeadNoActor (w : World) : Prop :=
  ∀ a, deadE w a → hasActor w a = false

/-- Every `Destructible` in the world satisfies `hp ≤ max_hp`. -/
def HpLeMax (w : World) : Prop :=
  ∀ a m h, Component.destructible m h ∈ getComps w a → h ≤ m

/-- No entity holds two components of the same concrete class. -/
def CtypesNodupAll (w : World) : Prop :=
  ∀ a, (ctypesOf w a).Nodup

/-- No type-index bucket lists an entity twice. -/
def BucketsNodup (w : World) : Prop :=
  ∀ t, (bucketGet w t).Nodup

/-- Every entity listed in the `Actor` bucket really holds an `Actor`. -/
def BucketSound (w : World) : Prop :=
  ∀ a, a ∈ bucketGet w .actor → hasActor w a = true

/-- The well-formedness the running program maintains: unique component
classes per entity, duplicate-free buckets, a sound `Actor` index, and no
dead actors. -/
def WF9 (w : World) : Prop :=
  CtypesNodupAll w ∧ BucketsNodup w ∧ BucketSound w ∧ DeadNoActor w

/-- The registry's type-index invariant: an entity is listed in the bucket
for `t` iff it currently holds an attached component of exactly class `t`. -/
def IndexInv (w : World) : Prop :=
  ∀ t a, a ∈ bucketGet w t ↔ t ∈ ctypesOf w a

/-- `IndexInv` together with the well-formedness that makes it stable. -/
def Inv8 (w : World) : Prop :=
  IndexInv w ∧ CtypesNodupAll w ∧ BucketsNodup w

/-! ### Sequences of `attach`/`detach` operations -/

/-- A registry operation: `entity.attach(component)` or
`entity.detach(component_type)`. -/
inductive Op
  | attachOp (e : Nat) (c : Component)
  | detachOp (e : Nat) (t : CompType)

/-- Run one operation against the world. -/
def applyOp (w : World) : Op → World
  | .attachOp e c => attach w e c
  | .detachOp e t => detach w e t

/-- Run a sequence of operations, left to right. -/
def applyOps (w : World) : List Op → World
  | [] => w
  | op :: rest => applyOps (applyOp w op) rest

/-- The discipline the data model imposes on a sequence: every `attach`
targets a registered entity and adds a component class the entity does not
already hold ("at most one component per concrete type per entity"). -/
def opsValid (w : World) : List Op → Prop
  | [] => True
  | .attachOp e c :: rest =>
      entExists w e ∧ ctype c ∉ ctypesOf w e ∧ opsValid (attach w e c) rest
  | .detachOp e t :: rest => opsValid (detach w e t) rest

/-! ### Concrete worlds used by counterexamples and witnesses -/

/-- One entity with a damaged `Destructible` (hp 3 of 10). -/
def WC1 : World :=
  ⟨1, [(0, [Component.destructible 10 3])], [(CompType.destructible, [0])], []⟩

/-- One dead entity (`hp = 0`) that also has a `Position` after its
`Destructible`. -/
def WC2 : World :=
  ⟨1, [(0, [Component.destructible 10 0, Component.position 7])],
   [(CompType.destructible, [0]), (CompType.position, [0])], []⟩

/-- One entity with a single pass-through component. -/
def WC4 : World :=
  ⟨1, [(0, [Component.nameable "Goblin"])], [(CompType.nameable, [0])], []⟩

/-- A defender whose evasion sample is forced to succeed. -/
def WC5 : World :=
  ⟨1, [(0, [Component.defender (7 / 20 : Rat), Component.position 5])],
   [(CompType.defender, [0]), (CompType.position, [0])], [true]⟩

/-- Two actors at coordinates 0 and 3 (the spec's movement scenario). -/
def WC6 : World :=
  ⟨2, [(0, [Component.position 0, Component.attacker 1 2,
            Component.destructible 10 10, Component.actor]),
       (1, [Component.position 3, Component.attacker 1 2,
            Component.destructible 10 10, Component.actor])],
   [(CompType.position, [0, 1]), (CompType.attacker, [0, 1]),
    (CompType.destructible, [0, 1]), (CompType.actor, [0, 1])], []⟩

/-- Attacker(accuracy 1, damage 5) against Defender + Destructible(10, 10),
with the oracle forcing hit / no-evasion / hit / no-evasion / no-evasion. -/
def WC7 : World :=
  ⟨2, [(0, [Component.attacker 1 5]),
       (1, [Component.defender (7 / 20 : Rat), Component.destructible 10 10])],
   [(CompType.attacker, [0]), (CompType.defender, [1]),
    (CompType.destructible, [1])], [true, false, true, false, false]⟩

/-- A one-entity world for an attach/detach sequence. -/
def WC8 : World :=
  ⟨1, [(0, [Component.nameable "Goblin"])], [(CompType.nameable, [0])], []⟩

/-- attach Position, detach Nameable, attach Actor, detach Actor. -/
def opsC8 : List Op :=
  [Op.attachOp 0 (Component.position 4), Op.detachOp 0 CompType.nameable,
   Op.attachOp 0 Component.actor, Op.detachOp 0 CompType.actor]

/-- An adjacent attacker (accuracy forced to hit) next to a 3-hp victim. -/
def WC9 : World :=
  ⟨2, [(0, [Component.position 0, Component.attacker 1 5,
            Component.destructible 10 10, Component.actor]),
       (1, [Component.position 1, Component.destructible 10 3,
            Component.actor])],
   [(CompType.position, [0, 1]), (CompType.attacker, [0]),
    (CompType.destructible, [0, 1]), (CompType.actor, [0, 1])], [true]⟩

/-- Three live actors spread out at 0, 5, 10 (first turn is a move). -/
def WC3 : World :=
  ⟨3, [(0, [Component.position 0, Component.attacker 1 2,
            Component.destructible 10 10, Component.actor]),
       (1, [Component.position 5, Component.attacker 1 2,
            Component.destructible 10 10, Component.actor]),
       (2, [Component.position 10, Component.attacker 1 2,
            Component.destructible 10 10, Component.actor])],
   [(CompType.position, [0, 1, 2]), (CompType.attacker, [0, 1, 2]),
    (CompType.destructible, [0, 1, 2]), (CompType.actor, [0, 1, 2])], []⟩

/-! ### Small list facts not found ready-made in the library -/

theorem list_set_self {α : Type} :
    ∀ (l : List α) (i : Nat) (a : α), l.get? i = some a → l.set i a = l
  | [], i, a, h => by simp at h
  | x :: xs, 0, a, h => by
      simp only [List.get?_cons_zero, Option.some.injEq] at h
      simp [h]
  | x :: xs, i + 1, a, h => by
      simp only [List.get?_cons_succ] at h
      simp [list_set_self xs i a h]

theorem list_eraseIdx_map {α β : Type} (f : α → β) :
    ∀ (l : List α) (i : Nat), (l.eraseIdx i).map f = (l.map f).eraseIdx i
  | [], i => by simp [List.eraseIdx]
  | _ :: _, 0 => by simp [List.eraseIdx]
  | x :: xs, i + 1 => by simp [List.eraseIdx, list_eraseIdx_map f xs i]

theorem list_mem_set_ne {α : Type} {b a a2 : α} :
    ∀ {l : List α} {i : Nat}, l.get? i = some a → b ≠ a → b ≠ a2 →
      (b ∈ l.set i a2 ↔ b ∈ l)
  | [], i, h, _, _ => by simp at h
  | x :: xs, 0, h, h1, h2 => by
      simp only [List.get?_cons_zero, Option.some.injEq] at h
      subst h
      simp [List.mem_cons, h1, h2]
  | x :: xs, i + 1, h, h1, h2 => by
      simp only [List.get?_cons_succ] at h
      simp [List.mem_cons, list_mem_set_ne h h1 h2]

theorem nodup_eraseIdx_not_mem {α : Type} :
    ∀ {l : List α} {j : Nat} {a : α}, l.Nodup → l.get? j = some a →
      a ∉ l.eraseIdx j
  | [], j, a, _, h => by simp at h
  | x :: xs, 0, a, hnd, h => by
      simp only [List.get?_cons_zero, Option.some.injEq] at h
      subst h
      simpa [List.eraseIdx] using (List.nodup_cons.mp hnd).1
  | x :: xs, j + 1, a, hnd, h => by
      simp only [List.get?_cons_succ] at h
      have hx : x ∉ xs := (List.nodup_cons.mp hnd).1
      have hmem : a ∈ xs := List.get?_mem h
      simp only [List.eraseIdx, List.mem_cons]
      rintro (rfl | hr)
      · exact hx hmem
      · exact nodup_eraseIdx_not_mem (List.nodup_cons.mp hnd).2 h hr

@[simp] theorem firstIdx_nil {α : Type} {p : α → Bool} :
    firstIdx p ([] : List α) = none := rfl

theorem firstIdx_cons {α : Type} (p : α → Bool) (x : α) (xs : List α) :
    firstIdx p (x :: xs) =
      if p x then some 0 else (firstIdx p xs).map (· + 1) := rfl

theorem firstIdx_none {α : Type} {p : α → Bool} :
    ∀ {l : List α}, firstIdx p l = none ↔ ∀ c ∈ l, p c = false
  | [] => by simp
  | x :: xs => by
      rw [firstIdx_cons]
      by_cases h : p x
      · simp [h]
      · rw [if_neg h, Option.map_eq_none', firstIdx_none]
        simp [List.mem_cons, Bool.of_not_eq_true h]

theorem firstIdx_get {α : Type} {p : α → Bool} :
    ∀ {l : List α} {j : Nat}, firstIdx p l = some j →
      ∃ c, l.get? j = some c ∧ p c = true
  | [], j, h => by simp at h
  | x :: xs, j, h => by
      rw [firstIdx_cons] at h
      by_cases hp : p x
      · rw [if_pos hp, Option.some.injEq] at h
        subst h
        exact ⟨x, by simp, hp⟩
      · rw [if_neg hp, Option.map_eq_some'] at h
        obtain ⟨j0, hj0, rfl⟩ := h
        obtain ⟨c, hc, hpc⟩ := firstIdx_get hj0
        exact ⟨c, by simpa using hc, hpc⟩

/-! ### Association-list facts -/

theorem setA_cons {α β : Type} [DecidableEq α] (p : α × β) (r : List (α × β))
    (k : α) (v : β) :
    setA (p :: r) k v = (if p.1 = k then (k, v) else p) :: setA r k v := rfl

theorem lookupA_cons {α β : Type} [DecidableEq α] (p : α × β)
    (r : List (α × β)) (k : α) :
    lookupA (p :: r) k = if p.1 = k then some p.2 else lookupA r k := rfl

theorem lookupA_setA_self {α β : Type} [DecidableEq α] :
    ∀ (l : List (α × β)) (k : α) (v : β),
      lookupA (setA l k v) k = (lookupA l k).map (fun _ => v)
  | [], _, _ => rfl
  | p :: r, k, v => by
      rw [setA_cons, lookupA_cons, lookupA_cons]
      by_cases h : p.1 = k
      · simp [h]
      · simp only [if_neg h]
        exact lookupA_setA_self r k v

theorem lookupA_setA_ne {α β : Type} [DecidableEq α] {k2 k : α} {v : β}
    (h : k2 ≠ k) :
    ∀ {l : List (α × β)}, lookupA (setA l k v) k2 = lookupA l k2
  | [] => rfl
  | p :: r => by
      rw [setA_cons, lookupA_cons, lookupA_cons]
      by_cases hp : p.1 = k
      · rw [if_pos hp, if_neg (show ¬(((k, v) : α × β).1 = k2) from
            fun hk => h hk.symm),
          if_neg (show ¬(p.1 = k2) from by
            rw [hp]; exact fun hk => h hk.symm)]
        exact lookupA_setA_ne h
      · rw [if_neg hp]
        by_cases hq : p.1 = k2
        · rw [if_pos hq, if_pos hq]
        · rw [if_neg hq, if_neg hq]
          exact lookupA_setA_ne h

theorem lookupA_mem {α β : Type} [DecidableEq α] {k : α} {v : β} :
    ∀ {l : List (α × β)}, lookupA l k = some v → (k, v) ∈ l
  | [], h => by simp [lookupA] at h
  | p :: r, h => by
      by_cases hp : p.1 = k
      · simp only [lookupA, hp, if_true, Option.some.injEq] at h
        subst h
        subst hp
        simp
      · simp only [lookupA, hp, if_false] at h
        exact List.mem_cons_of_mem _ (lookupA_mem h)

/-! ### World accessor facts -/

theorem entExists_of_comps_ne {w : World} {e : Nat}
    (h : getComps w e ≠ []) : entExists w e := by
  unfold entExists
  cases hl : lookupA w.ents e with
  | none => exact absurd (by simp [getComps, hl]) h
  | some l => rfl

theorem entExists_of_get? {w : World} {e i : Nat} {c : Component}
    (h : (getComps w e).get? i = some c) : entExists w e :=
  entExists_of_comps_ne (fun hn => by rw [hn] at h; simp at h)

@[simp] theorem getComps_rngTail (w : World) (e : Nat) :
    getComps (rngTail w) e = getComps w e := rfl

@[simp] theorem bucketGet_rngTail (w : World) (t : CompType) :
    bucketGet (rngTail w) t = bucketGet w t := rfl

@[simp] theorem getComps_setEnt_ne {w : World} {e e2 : Nat} {cs : List Component}
    (h : e2 ≠ e) : getComps (setEnt w e cs) e2 = getComps w e2 := by
  simp [getComps, setEnt, lookupA_setA_ne h]

theorem getComps_setEnt_self {w : World} {e : Nat} {cs : List Component}
    (h : entExists w e) : getComps (setEnt w e cs) e = cs := by
  unfold entExists at h
  unfold getComps setEnt
  rw [lookupA_setA_self]
  cases hl : lookupA w.ents e with
  | none => rw [hl] at h; simp at h
  | some l => simp

@[simp] theorem bucketGet_setEnt (w : World) (e : Nat) (cs : List Component)
    (t : CompType) : bucketGet (setEnt w e cs) t = bucketGet w t := rfl

theorem entExists_setEnt {w : World} {e e2 : Nat} {cs : List Component} :
    entExists (setEnt w e cs) e2 ↔ entExists w e2 := by
  unfold entExists setEnt
  by_cases h : e2 = e
  · subst h
    simp only [lookupA_setA_self]
    cases lookupA w.ents e2 <;> simp
  · rw [lookupA_setA_ne h]

@[simp] theorem getComps_bucketAppend (w : World) (t : CompType) (e0 e : Nat) :
    getComps (bucketAppend w t e0) e = getComps w e := by
  unfold bucketAppend
  cases lookupA w.buckets t <;> rfl

@[simp] theorem getComps_bucketErase (w : World) (t : CompType) (e0 e : Nat) :
    getComps (bucketErase w t e0) e = getComps w e := by
  unfold bucketErase
  cases lookupA w.buckets t <;> rfl

theorem getComps_setComp_ne {w : World} {e e2 i : Nat} {c : Component}
    (h : e2 ≠ e) : getComps (setComp w e i c) e2 = getComps w e2 :=
  getComps_setEnt_ne h

theorem getComps_setComp_self {w : World} {e i : Nat} {c : Component}
    (h : entExists w e) :
    getComps (setComp w e i c) e = (getComps w e).set i c :=
  getComps_setEnt_self h

@[simp] theorem bucketGet_setComp (w : World) (e i : Nat) (c : Component)
    (t : CompType) : bucketGet (setComp w e i c) t = bucketGet w t := rfl

/-! ### Buckets under append / erase -/

theorem lookupA_append {α β : Type} [DecidableEq α] {k : α} :
    ∀ (l1 l2 : List (α × β)),
      lookupA (l1 ++ l2) k =
        match lookupA l1 k with
        | some v => some v
        | none => lookupA l2 k
  | [], l2 => rfl
  | p :: r, l2 => by
      by_cases hp : p.1 = k
      · simp [lookupA_cons, hp]
      · simp only [List.cons_append, lookupA_cons, if_neg hp]
        exact lookupA_append r l2

theorem bucketGet_bucketAppend_self (w : World) (t : CompType) (e : Nat) :
    bucketGet (bucketAppend w t e) t = bucketGet w t ++ [e] := by
  unfold bucketAppend
  cases hl : lookupA w.buckets t with
  | none =>
      simp only [bucketGet, hl, Option.getD_none, List.nil_append,
        lookupA_append, lookupA_cons, lookupA]
      simp
  | some l =>
      simp [bucketGet, hl, lookupA_setA_self]

theorem bucketGet_bucketAppend_ne {w : World} {t t2 : CompType} {e : Nat}
    (h : t2 ≠ t) : bucketGet (bucketAppend w t e) t2 = bucketGet w t2 := by
  unfold bucketAppend
  cases hl : lookupA w.buckets t with
  | none =>
      simp only [bucketGet, lookupA_append]
      cases hx : lookupA w.buckets t2 with
      | none => simp [lookupA_cons, lookupA, Ne.symm h]
      | some l2 => simp
  | some l =>
      simp [bucketGet, lookupA_setA_ne h]

theorem bucketGet_bucketErase_self (w : World) (t : CompType) (e : Nat) :
    bucketGet (bucketErase w t e) t = (bucketGet w t).erase e := by
  unfold bucketErase
  cases hl : lookupA w.buckets t with
  | none => simp [bucketGet, hl]
  | some l => simp [bucketGet, hl, lookupA_setA_self]

theorem bucketGet_bucketErase_ne {w : World} {t t2 : CompType} {e : Nat}
    (h : t2 ≠ t) : bucketGet (bucketErase w t e) t2 = bucketGet w t2 := by
  unfold bucketErase
  cases hl : lookupA w.buckets t with
  | none => rfl
  | some l => simp [bucketGet, lookupA_setA_ne h]

/-! ### Component classes of an entity -/

theorem hasActor_iff {w : World} {e : Nat} :
    hasActor w e = true ↔ CompType.actor ∈ ctypesOf w e := by
  unfold hasActor get_component ctypesOf
  rw [List.find?_isSome]
  constructor
  · rintro ⟨c, hc, hp⟩
    rw [beq_iff_eq] at hp
    exact hp ▸ List.mem_map_of_mem ctype hc
  · intro hm
    obtain ⟨c, hc, hct⟩ := List.mem_map.mp hm
    exact ⟨c, hc, by rw [beq_iff_eq]; exact hct⟩

theorem hasActor_congr {w1 w2 : World} {e : Nat}
    (h : getComps w1 e = getComps w2 e) : hasActor w1 e = hasActor w2 e := by
  unfold hasActor get_component
  rw [h]

theorem hasActor_congr_ct {w1 w2 : World} {e : Nat}
    (h : ctypesOf w1 e = ctypesOf w2 e) : hasActor w1 e = hasActor w2 e := by
  cases h2 : hasActor w2 e with
  | true => exact hasActor_iff.mpr (h ▸ hasActor_iff.mp h2)
  | false =>
      cases h1 : hasActor w1 e with
      | false => rfl
      | true => exact absurd (hasActor_iff.mpr (h ▸ hasActor_iff.mp h1)) (by simp [h2])

theorem hasActor_of_sublist {w1 w2 : World} {e : Nat}
    (hs : (ctypesOf w1 e).Sublist (ctypesOf w2 e))
    (h : hasActor w1 e = true) : hasActor w2 e = true :=
  hasActor_iff.mpr (hs.subset (hasActor_iff.mp h))

/-! ### `detach` structure -/

theorem detach_comps_ne {w : World} {e e2 : Nat} {t : CompType} (h : e2 ≠ e) :
    getComps (detach w e t) e2 = getComps w e2 := by
  unfold detach
  cases firstIdx (fun c => ctype c == t) (getComps w e) with
  | none => rfl
  | some j => simp [getComps_setEnt_ne h]

theorem detach_ctypes_sublist (w : World) (e : Nat) (t : CompType) :
    (ctypesOf (detach w e t) e).Sublist (ctypesOf w e) := by
  unfold detach
  cases hf : firstIdx (fun c => ctype c == t) (getComps w e) with
  | none => exact List.Sublist.refl _
  | some j =>
      obtain ⟨c, hc, _⟩ := firstIdx_get hf
      have hex : entExists w e := entExists_of_get? hc
      unfold ctypesOf
      simp only [getComps_bucketErase, getComps_setEnt_self hex]
      rw [list_eraseIdx_map]
      exact List.eraseIdx_sublist _ j

theorem detach_ctypes_sublist_all (w : World) (e : Nat) (t : CompType)
    (e2 : Nat) : (ctypesOf (detach w e t) e2).Sublist (ctypesOf w e2) := by
  by_cases h : e2 = e
  · subst h; exact detach_ctypes_sublist w e2 t
  · unfold ctypesOf
    rw [detach_comps_ne h]

theorem detach_actor_not_hasActor {w : World} {e : Nat}
    (hnd : (ctypesOf w e).Nodup) :
    hasActor (detach w e .actor) e = false := by
  cases hf : firstIdx (fun c => ctype c == CompType.actor) (getComps w e) with
  | none =>
      have hall := firstIdx_none.mp hf
      have : hasActor w e = false := by
        unfold hasActor get_component
        rw [List.find?_eq_none.mpr (fun x hx => by simp [hall x hx])]
        rfl
      unfold detach
      rw [hf]
      exact this
  | some j =>
      obtain ⟨c, hc, hpc⟩ := firstIdx_get hf
      rw [beq_iff_eq] at hpc
      have hex : entExists w e := entExists_of_get? hc
      have hcomps : getComps (detach w e .actor) e = (getComps w e).eraseIdx j := by
        unfold detach
        rw [hf]
        simp [getComps_setEnt_self hex]
      have hget : (ctypesOf w e).get? j = some CompType.actor := by
        unfold ctypesOf
        rw [List.get?_map, hc]
        simp [hpc]
      have hnm : CompType.actor ∉ ctypesOf (detach w e .actor) e := by
        unfold ctypesOf
        rw [hcomps, list_eraseIdx_map]
        exact nodup_eraseIdx_not_mem hnd hget
      cases hres : hasActor (detach w e .actor) e with
      | false => rfl
      | true => exact absurd (hasActor_iff.mp hres) hnm

theorem detach_buckets_ne {w : World} {e : Nat} {t t2 : CompType}
    (h : t2 ≠ t) : bucketGet (detach w e t) t2 = bucketGet w t2 := by
  unfold detach
  cases firstIdx (fun c => ctype c == t) (getComps w e) with
  | none => rfl
  | some j => rw [bucketGet_bucketErase_ne h, bucketGet_setEnt]

theorem detach_buckets_self_cases (w : World) (e : Nat) (t : CompType) :
    bucketGet (detach w e t) t = bucketGet w t ∨
    bucketGet (detach w e t) t = (bucketGet w t).erase e := by
  unfold detach
  cases firstIdx (fun c => ctype c == t) (getComps w e) with
  | none => exact Or.inl rfl
  | some j =>
      right
      rw [bucketGet_bucketErase_self, bucketGet_setEnt]

theorem detach_bucket_sub {w : World} {e : Nat} {t t2 : CompType} :
    (bucketGet (detach w e t) t2).Sublist (bucketGet w t2) := by
  by_cases h : t2 = t
  · subst h
    rcases detach_buckets_self_cases w e t2 with hcase | hcase
    · rw [hcase]
    · rw [hcase]
      exact List.erase_sublist e _
  · rw [detach_buckets_ne h]

/-! ### `modify_hp` structure -/

theorem modify_hp_comps_ne {w : World} {e e2 i : Nat} {m h a : Int}
    (hne : e2 ≠ e) :
    getComps (modify_hp w e i m h a) e2 = getComps w e2 := by
  unfold modify_hp
  by_cases hl : h > 0
  · rw [if_pos hl]
    by_cases hd : min (h + a) m ≤ 0
    · rw [if_pos hd, detach_comps_ne hne, getComps_setComp_ne hne]
    · rw [if_neg hd, getComps_setComp_ne hne]
  · rw [if_neg hl]

theorem setComp_ctypes_same {w : World} {e i : Nat} {c c0 : Component}
    (hget : (getComps w e).get? i = some c0) (hct : ctype c = ctype c0) :
    ∀ e2, ctypesOf (setComp w e i c) e2 = ctypesOf w e2 := by
  intro e2
  by_cases h : e2 = e
  · subst h
    unfold ctypesOf
    rw [getComps_setComp_self (entExists_of_get? hget), List.map_set, hct]
    exact list_set_self _ i _ (by rw [List.get?_map, hget]; rfl)
  · unfold ctypesOf
    rw [getComps_setComp_ne h]

theorem modify_hp_ctypes_sublist {w : World} {e i : Nat} {m h a m0 h0 : Int}
    (hget : (getComps w e).get? i = some (.destructible m0 h0)) (e2 : Nat) :
    (ctypesOf (modify_hp w e i m h a) e2).Sublist (ctypesOf w e2) := by
  unfold modify_hp
  by_cases hl : h > 0
  · rw [if_pos hl]
    have hset := setComp_ctypes_same (c := Component.destructible m (min (h + a) m))
      hget rfl
    by_cases hd : min (h + a) m ≤ 0
    · rw [if_pos hd]
      have := detach_ctypes_sublist_all (setComp w e i
        (.destructible m (min (h + a) m))) e .actor e2
      rw [hset e2] at this
      exact this
    · rw [if_neg hd, hset e2]
  · rw [if_neg hl]

theorem modify_hp_bucket_sub {w : World} {e i : Nat} {m h a : Int}
    {t : CompType} :
    (bucketGet (modify_hp w e i m h a) t).Sublist (bucketGet w t) := by
  unfold modify_hp
  by_cases hl : h > 0
  · rw [if_pos hl]
    by_cases hd : min (h + a) m ≤ 0
    · rw [if_pos hd]
      have := @detach_bucket_sub
        (setComp w e i (.destructible m (min (h + a) m))) e .actor t
      rw [bucketGet_setComp] at this
      exact this
    · rw [if_neg hd, bucketGet_setComp]
  · rw [if_neg hl]

/-! ### The shapes a single component step can take -/

/-- Every world a component update can produce: unchanged, a position
replacement, a `modify_hp`, one oracle sample consumed (`Defender`), or the
controller's result (`Actor` on `Turn`). -/
theorem stepComp_shape (actF : World → Nat → World) (w : World) (e i : Nat)
    (c : Component) (ev : Event) :
    (stepComp actF w e i c ev).1 = w ∨
    (∃ x d, c = Component.position x ∧
      (stepComp actF w e i c ev).1 = setComp w e i (.position d)) ∨
    (∃ m h a, c = Component.destructible m h ∧
      (stepComp actF w e i c ev).1 = modify_hp w e i m h a) ∨
    (stepComp actF w e i c ev).1 = rngTail w ∨
    (stepComp actF w e i c ev).1 = actF w e := by
  cases c with
  | nameable n => exact Or.inl rfl
  | position x =>
      cases ev with
      | move d => exact Or.inr (Or.inl ⟨x, d, rfl, rfl⟩)
      | turn => exact Or.inl rfl
      | attack dmg => exact Or.inl rfl
  | destructible m h =>
      cases ev with
      | attack dmg => exact Or.inr (Or.inr (Or.inl ⟨m, h, -dmg, rfl, rfl⟩))
      | turn => exact Or.inl rfl
      | move d => exact Or.inl rfl
  | attacker acc dmg => exact Or.inl rfl
  | defender p =>
      cases ev with
      | attack dmg =>
          refine Or.inr (Or.inr (Or.inr (Or.inl ?_)))
          have hd : (stepComp actF w e i (.defender p) (.attack dmg)).1 =
              (chance w p).2 := by
            simp only [stepComp]
            cases hb : (chance w p).1 <;> simp [hb]
          rw [hd]
          rfl
      | turn => exact Or.inl rfl
      | move d => exact Or.inl rfl
  | actor =>
      cases ev with
      | turn => exact Or.inr (Or.inr (Or.inr (Or.inr rfl)))
      | move d => exact Or.inl rfl
      | attack dmg => exact Or.inl rfl

/-! ### Generic facts about the component fold -/

theorem updateLoop_succ (actF : World → Nat → World) (fuel : Nat) (w : World)
    (e i : Nat) (ev : Event) :
    updateLoop actF (fuel + 1) w e i ev =
      match (getComps w e).get? i with
      | none => (w, none, [])
      | some c =>
        match stepComp actF w e i c ev with
        | (w1, none) => (w1, none, [(i, true)])
        | (w1, some ev1) =>
          let r := updateLoop actF fuel w1 e (i + 1) ev1
          (r.1, r.2.1, (i, false) :: r.2.2) := rfl

theorem updateLoop_succ_none (actF : World → Nat → World) (fuel : Nat)
    (w : World) (e i : Nat) (ev : Event)
    (hg : (getComps w e).get? i = none) :
    updateLoop actF (fuel + 1) w e i ev = (w, none, []) := by
  rw [updateLoop_succ, hg]

theorem updateLoop_succ_some (actF : World → Nat → World) (fuel : Nat)
    (w : World) (e i : Nat) (ev : Event) (c : Component)
    (hg : (getComps w e).get? i = some c) :
    updateLoop actF (fuel + 1) w e i ev =
      match stepComp actF w e i c ev with
      | (w1, none) => (w1, none, [(i, true)])
      | (w1, some ev1) =>
        let r := updateLoop actF fuel w1 e (i + 1) ev1
        (r.1, r.2.1, (i, false) :: r.2.2) := by
  rw [updateLoop_succ, hg]

theorem updateLoop_step_none (actF : World → Nat → World) (fuel : Nat)
    (w w1 : World) (e i : Nat) (ev : Event) (c : Component)
    (hg : (getComps w e).get? i = some c)
    (hs : stepComp actF w e i c ev = (w1, none)) :
    updateLoop actF (fuel + 1) w e i ev = (w1, none, [(i, true)]) := by
  rw [updateLoop_succ_some actF fuel w e i ev c hg, hs]

theorem updateLoop_step_some (actF : World → Nat → World) (fuel : Nat)
    (w w1 : World) (e i : Nat) (ev ev1 : Event) (c : Component)
    (hg : (getComps w e).get? i = some c)
    (hs : stepComp actF w e i c ev = (w1, some ev1)) :
    updateLoop actF (fuel + 1) w e i ev =
      ((updateLoop actF fuel w1 e (i + 1) ev1).1,
       (updateLoop actF fuel w1 e (i + 1) ev1).2.1,
       (i, false) :: (updateLoop actF fuel w1 e (i + 1) ev1).2.2) := by
  rw [updateLoop_succ_some actF fuel w e i ev c hg, hs]

/-- `Entity.update` always reports "nothing": the Python function either
executes a bare `return` (short-circuit) or falls off the end of the loop,
producing `None` both ways. -/
theorem updateLoop_ret_none (actF : World → Nat → World) :
    ∀ (fuel : Nat) (w : World) (e i : Nat) (ev : Event),
      (updateLoop actF fuel w e i ev).2.1 = none
  | 0, _, _, _, _ => rfl
  | fuel + 1, w, e, i, ev => by
      cases hg : (getComps w e).get? i with
      | none => rw [updateLoop_succ_none actF fuel w e i ev hg]
      | some c =>
          cases hs : stepComp actF w e i c ev with
          | mk w1 r =>
              cases r with
              | none => rw [updateLoop_step_none actF fuel w w1 e i ev c hg hs]
              | some ev1 =>
                  rw [updateLoop_step_some actF fuel w w1 e i ev ev1 c hg hs]
                  exact updateLoop_ret_none actF fuel w1 e (i + 1) ev1

/-- Trace entries produced from position `i` onwards concern positions
`≥ i`. -/
theorem updateLoop_trace_ge (actF : World → Nat → World) :
    ∀ (fuel : Nat) (w : World) (e i : Nat) (ev : Event) (j : Nat) (b : Bool),
      (j, b) ∈ (updateLoop actF fuel w e i ev).2.2 → i ≤ j
  | 0, _, _, _, _, _, _, h => by simp [updateLoop] at h
  | fuel + 1, w, e, i, ev, j, b, h => by
      cases hg : (getComps w e).get? i with
      | none => rw [updateLoop_succ_none actF fuel w e i ev hg] at h; simp at h
      | some c =>
          cases hs : stepComp actF w e i c ev with
          | mk w1 r =>
              cases r with
              | none =>
                  rw [updateLoop_step_none actF fuel w w1 e i ev c hg hs] at h
                  simp only [List.mem_singleton, Prod.mk.injEq] at h
                  exact h.1 ▸ Nat.le_refl i
              | some ev1 =>
                  rw [updateLoop_step_some actF fuel w w1 e i ev ev1 c hg hs] at h
                  simp only [List.mem_cons, Prod.mk.injEq] at h
                  rcases h with ⟨rfl, rfl⟩ | h
                  · exact Nat.le_refl j
                  · exact Nat.le_of_succ_le
                      (updateLoop_trace_ge actF fuel w1 e (i + 1) ev1 j b h)

/-- Preservation of a world invariant through the fold, given preservation
through a single component step. -/
theorem updateLoop_pres (P : World → Prop) (actF : World → Nat → World)
    (hstep : ∀ w e i c ev, (getComps w e).get? i = some c → P w →
      P (stepComp actF w e i c ev).1) :
    ∀ (fuel : Nat) (w : World) (e i : Nat) (ev : Event),
      P w → P (updateLoop actF fuel w e i ev).1
  | 0, _, _, _, _, hw => hw
  | fuel + 1, w, e, i, ev, hw => by
      cases hg : (getComps w e).get? i with
      | none => rw [updateLoop_succ_none actF fuel w e i ev hg]; exact hw
      | some c =>
          have h1 := hstep w e i c ev hg hw
          cases hs : stepComp actF w e i c ev with
          | mk w1 r =>
              rw [hs] at h1
              cases r with
              | none =>
                  rw [updateLoop_step_none actF fuel w w1 e i ev c hg hs]
                  exact h1
              | some ev1 =>
                  rw [updateLoop_step_some actF fuel w w1 e i ev ev1 c hg hs]
                  exact updateLoop_pres P actF hstep fuel w1 e (i + 1) ev1 h1

/-! ### The fold with the inert controller (`Move`/`Attack` dispatches) -/

theorem stepComp_triv_comps_ne {w : World} {e e2 i : Nat} {c : Component}
    {ev : Event} (hne : e2 ≠ e) :
    getComps (stepComp trivAct w e i c ev).1 e2 = getComps w e2 := by
  rcases stepComp_shape trivAct w e i c ev with
    h | ⟨x, d, hc, h⟩ | ⟨m, hh, a, hc, h⟩ | h | h
  · rw [h]
  · rw [h, getComps_setComp_ne hne]
  · rw [h]; exact modify_hp_comps_ne hne
  · rw [h]; rfl
  · rw [h]; rfl

theorem stepComp_triv_ctypes_sub {w : World} {e i : Nat} {c : Component}
    {ev : Event} (hg : (getComps w e).get? i = some c) (e2 : Nat) :
    (ctypesOf (stepComp trivAct w e i c ev).1 e2).Sublist (ctypesOf w e2) := by
  rcases stepComp_shape trivAct w e i c ev with
    h | ⟨x, d, hc, h⟩ | ⟨m, hh, a, hc, h⟩ | h | h
  · rw [h]
  · have hg2 : (getComps w e).get? i = some (Component.position x) := hc ▸ hg
    rw [h, setComp_ctypes_same hg2
      (show ctype (Component.position d) = ctype (Component.position x) from rfl) e2]
  · have hg2 : (getComps w e).get? i = some (Component.destructible m hh) :=
      hc ▸ hg
    rw [h]; exact modify_hp_ctypes_sublist hg2 e2
  · rw [h]; exact List.Sublist.refl _
  · rw [h]; exact List.Sublist.refl _

theorem stepComp_triv_bucket_sub {w : World} {e i : Nat} {c : Component}
    {ev : Event} {t : CompType} :
    (bucketGet (stepComp trivAct w e i c ev).1 t).Sublist (bucketGet w t) := by
  rcases stepComp_shape trivAct w e i c ev with
    h | ⟨x, d, hc, h⟩ | ⟨m, hh, a, hc, h⟩ | h | h
  · rw [h]
  · rw [h, bucketGet_setComp]
  · rw [h]; exact modify_hp_bucket_sub
  · rw [h]; exact List.Sublist.refl _
  · rw [h]; exact List.Sublist.refl _

theorem updateLoop_triv_comps_ne {e2 : Nat} :
    ∀ (fuel : Nat) (w : World) (e i : Nat) (ev : Event), e2 ≠ e →
      getComps (updateLoop trivAct fuel w e i ev).1 e2 = getComps w e2
  | 0, _, _, _, _, _ => rfl
  | fuel + 1, w, e, i, ev, hne => by
      cases hg : (getComps w e).get? i with
      | none => rw [updateLoop_succ_none trivAct fuel w e i ev hg]
      | some c =>
          have h1 : getComps (stepComp trivAct w e i c ev).1 e2 = getComps w e2 :=
            stepComp_triv_comps_ne hne
          cases hs : stepComp trivAct w e i c ev with
          | mk w1 r =>
              rw [hs] at h1
              cases r with
              | none =>
                  rw [updateLoop_step_none trivAct fuel w w1 e i ev c hg hs]
                  exact h1
              | some ev1 =>
                  rw [updateLoop_step_some trivAct fuel w w1 e i ev ev1 c hg hs]
                  rw [updateLoop_triv_comps_ne fuel w1 e (i + 1) ev1 hne]
                  exact h1

theorem updateLoop_triv_ctypes_sub :
    ∀ (fuel : Nat) (w : World) (e i : Nat) (ev : Event) (e2 : Nat),
      (ctypesOf (updateLoop trivAct fuel w e i ev).1 e2).Sublist (ctypesOf w e2)
  | 0, _, _, _, _, _ => List.Sublist.refl _
  | fuel + 1, w, e, i, ev, e2 => by
      cases hg : (getComps w e).get? i with
      | none =>
          rw [updateLoop_succ_none trivAct fuel w e i ev hg]
      | some c =>
          have h1 := @stepComp_triv_ctypes_sub w e i c ev hg e2
          cases hs : stepComp trivAct w e i c ev with
          | mk w1 r =>
              rw [hs] at h1
              cases r with
              | none =>
                  rw [updateLoop_step_none trivAct fuel w w1 e i ev c hg hs]
                  exact h1
              | some ev1 =>
                  rw [updateLoop_step_some trivAct fuel w w1 e i ev ev1 c hg hs]
                  exact (updateLoop_triv_ctypes_sub fuel w1 e (i + 1) ev1 e2).trans h1

theorem updateLoop_triv_bucket_sub :
    ∀ (fuel : Nat) (w : World) (e i : Nat) (ev : Event) (t : CompType),
      (bucketGet (updateLoop trivAct fuel w e i ev).1 t).Sublist (bucketGet w t)
  | 0, _, _, _, _, _ => List.Sublist.refl _
  | fuel + 1, w, e, i, ev, t => by
      cases hg : (getComps w e).get? i with
      | none =>
          rw [updateLoop_succ_none trivAct fuel w e i ev hg]
      | some c =>
          have h1 := @stepComp_triv_bucket_sub w e i c ev t
          cases hs : stepComp trivAct w e i c ev with
          | mk w1 r =>
              rw [hs] at h1
              cases r with
              | none =>
                  rw [updateLoop_step_none trivAct fuel w w1 e i ev c hg hs]
                  exact h1
              | some ev1 =>
                  rw [updateLoop_step_some trivAct fuel w w1 e i ev ev1 c hg hs]
                  exact (updateLoop_triv_bucket_sub fuel w1 e (i + 1) ev1 t).trans h1

/-- A `Move` event passes through every component unchanged; only a
`Position` mutates, and mutating a position never changes any entity's list
of component classes. -/
theorem stepComp_move_eq {w : World} {e i : Nat} {c : Component} {d : Int}
    (hg : (getComps w e).get? i = some c) :
    (stepComp trivAct w e i c (.move d)).2 = some (.move d) ∧
    ∀ e2, ctypesOf (stepComp trivAct w e i c (.move d)).1 e2 = ctypesOf w e2 := by
  cases c with
  | position x => exact ⟨rfl, setComp_ctypes_same hg rfl⟩
  | nameable n => exact ⟨rfl, fun _ => rfl⟩
  | destructible m h => exact ⟨rfl, fun _ => rfl⟩
  | attacker a dm => exact ⟨rfl, fun _ => rfl⟩
  | defender p => exact ⟨rfl, fun _ => rfl⟩
  | actor => exact ⟨rfl, fun _ => rfl⟩

theorem updateLoop_move_ctypes :
    ∀ (fuel : Nat) (w : World) (e i : Nat) (d : Int) (e2 : Nat),
      ctypesOf (updateLoop trivAct fuel w e i (.move d)).1 e2 = ctypesOf w e2
  | 0, _, _, _, _, _ => rfl
  | fuel + 1, w, e, i, d, e2 => by
      cases hg : (getComps w e).get? i with
      | none => rw [updateLoop_succ_none trivAct fuel w e i (.move d) hg]
      | some c =>
          obtain ⟨hsnd, hcts⟩ := @stepComp_move_eq w e i c d hg
          cases hs : stepComp trivAct w e i c (.move d) with
          | mk w1 r =>
              rw [hs] at hsnd hcts
              simp only at hsnd
              subst hsnd
              rw [updateLoop_step_some trivAct fuel w w1 e i (.move d) (.move d) c hg hs]
              rw [updateLoop_move_ctypes fuel w1 e (i + 1) d e2]
              exact hcts e2

/-! ### `Turn` events: everything except `Actor` is a pure pass-through -/

theorem stepComp_turn_nonactor (actF : World → Nat → World) {w : World}
    {e i : Nat} {c : Component} (hct : ctype c ≠ CompType.actor) :
    stepComp actF w e i c .turn = (w, some .turn) := by
  cases c with
  | nameable n => rfl
  | position x => rfl
  | destructible m h => rfl
  | attacker a dm => rfl
  | defender p => rfl
  | actor => exact absurd rfl hct

theorem stepComp_turn_actor (actF : World → Nat → World) (w : World)
    (e i : Nat) :
    stepComp actF w e i .actor .turn = (actF w e, some .turn) := rfl

theorem list_drop_cons_of_get? {α : Type} {l : List α} {i : Nat} {c : α}
    (h : l.get? i = some c) : l.drop i = c :: l.drop (i + 1) := by
  rw [List.get?_eq_getElem?] at h
  obtain ⟨hlen, hc⟩ := List.getElem?_eq_some_iff.mp h
  rw [List.drop_eq_getElem_cons hlen, hc]

/-- A `Turn` delivered to an entity none of whose remaining components is an
`Actor` changes nothing. -/
theorem updateLoop_turn_noactor (actF : World → Nat → World) :
    ∀ (fuel : Nat) (w : World) (e i : Nat),
      (∀ c ∈ (getComps w e).drop i, ctype c ≠ CompType.actor) →
      (updateLoop actF fuel w e i .turn).1 = w
  | 0, _, _, _, _ => rfl
  | fuel + 1, w, e, i, hno => by
      cases hg : (getComps w e).get? i with
      | none => rw [updateLoop_succ_none actF fuel w e i .turn hg]
      | some c =>
          have hdrop := list_drop_cons_of_get? hg
          have hcm : c ∈ (getComps w e).drop i := by rw [hdrop]; simp
          have hs := @stepComp_turn_nonactor actF w e i c (hno c hcm)
          rw [updateLoop_step_some actF fuel w w e i .turn .turn c hg hs]
          exact updateLoop_turn_noactor actF fuel w e (i + 1)
            (fun c2 hc2 => hno c2 (by rw [hdrop]; exact List.mem_cons_of_mem c hc2))

/-! ### `Attacker.attack` and `BerserkAI.act` as world transformations -/

theorem get_component_ctype {w : World} {e : Nat} {t : CompType}
    {c : Component} (h : get_component w e t = some c) : ctype c = t := by
  have := List.find?_some h
  rwa [beq_iff_eq] at this

theorem attackF_eq_none {w : World} {atk : Nat} (tgt : Nat)
    (hga : get_component w atk .attacker = none) : attackF w atk tgt = w := by
  unfold attackF
  rw [hga]

theorem attackF_eq {w : World} {atk : Nat} {acc : Rat} {dmg : Int} (tgt : Nat)
    (hga : get_component w atk .attacker = some (.attacker acc dmg)) :
    attackF w atk tgt =
      if (chance w acc).1 = true
      then (updateNoAct (chance w acc).2 tgt (.attack dmg)).1
      else (chance w acc).2 := by
  unfold attackF
  rw [hga]

theorem attackF_comps_ne {w : World} {atk tgt a : Nat} (ha : a ≠ tgt) :
    getComps (attackF w atk tgt) a = getComps w a := by
  cases hga : get_component w atk .attacker with
  | none => rw [attackF_eq_none tgt hga]
  | some c =>
      have hct := get_component_ctype hga
      cases c with
      | attacker acc dmg =>
          rw [attackF_eq tgt hga]
          by_cases hb : (chance w acc).1 = true
          · rw [if_pos hb]
            unfold updateNoAct
            rw [updateLoop_triv_comps_ne _ _ _ _ _ ha]
            rfl
          · rw [if_neg hb]
            rfl
      | nameable n => simp [ctype] at hct
      | position x => simp [ctype] at hct
      | destructible m h => simp [ctype] at hct
      | defender p => simp [ctype] at hct
      | actor => simp [ctype] at hct

theorem attackF_ctypes_sub (w : World) (atk tgt a : Nat) :
    (ctypesOf (attackF w atk tgt) a).Sublist (ctypesOf w a) := by
  cases hga : get_component w atk .attacker with
  | none => rw [attackF_eq_none tgt hga]
  | some c =>
      have hct := get_component_ctype hga
      cases c with
      | attacker acc dmg =>
          rw [attackF_eq tgt hga]
          by_cases hb : (chance w acc).1 = true
          · rw [if_pos hb]
            unfold updateNoAct
            exact updateLoop_triv_ctypes_sub _ _ _ _ _ a
          · rw [if_neg hb]
            exact List.Sublist.refl _
      | nameable n => simp [ctype] at hct
      | position x => simp [ctype] at hct
      | destructible m h => simp [ctype] at hct
      | defender p => simp [ctype] at hct
      | actor => simp [ctype] at hct

theorem attackF_bucket_sub (w : World) (atk tgt : Nat) (t : CompType) :
    (bucketGet (attackF w atk tgt) t).Sublist (bucketGet w t) := by
  cases hga : get_component w atk .attacker with
  | none => rw [attackF_eq_none tgt hga]
  | some c =>
      have hct := get_component_ctype hga
      cases c with
      | attacker acc dmg =>
          rw [attackF_eq tgt hga]
          by_cases hb : (chance w acc).1 = true
          · rw [if_pos hb]
            unfold updateNoAct
            exact updateLoop_triv_bucket_sub _ _ _ _ _ t
          · rw [if_neg hb]
            exact List.Sublist.refl _
      | nameable n => simp [ctype] at hct
      | position x => simp [ctype] at hct
      | destructible m h => simp [ctype] at hct
      | defender p => simp [ctype] at hct
      | actor => simp [ctype] at hct

theorem pyMinBy_foldl_mem (f : Nat → Int) :
    ∀ (xs : List Nat) (b : Nat),
      xs.foldl (fun best y => if f y < f best then y else best) b = b ∨
      xs.foldl (fun best y => if f y < f best then y else best) b ∈ xs
  | [], b => Or.inl rfl
  | y :: ys, b => by
      simp only [List.foldl_cons]
      rcases pyMinBy_foldl_mem f ys (if f y < f b then y else b) with h | h
      · rw [h]
        by_cases hy : f y < f b
        · rw [if_pos hy]
          exact Or.inr (by simp)
        · rw [if_neg hy]
          exact Or.inl rfl
      · exact Or.inr (List.mem_cons_of_mem y h)

theorem pyMinBy_mem {f : Nat → Int} {l : List Nat} {c : Nat}
    (h : pyMinBy f l = some c) : c ∈ l := by
  cases l with
  | nil => simp [pyMinBy] at h
  | cons x xs =>
      simp only [pyMinBy, Option.some.injEq] at h
      rcases pyMinBy_foldl_mem f xs x with h2 | h2
      · rw [← h, h2]
        simp
      · rw [← h]
        exact List.mem_cons_of_mem x h2

theorem enemiesOf_mem_ne {w : World} {me x : Nat}
    (h : x ∈ enemiesOf w me) : x ≠ me := by
  unfold enemiesOf at h
  have h2 := (List.mem_filter.mp h).2
  simp only [Bool.and_eq_true, decide_eq_true_eq] at h2
  exact h2.1

/-- Unfolding equations for `BerserkAI.act`, one per branch of the source. -/
theorem berserkAct_eq_empty {w : World} {me : Nat}
    (h0 : enemiesOf w me = []) : berserkAct w me = w := by
  unfold berserkAct
  rw [if_pos h0]

theorem berserkAct_eq_nopos {w : World} {me : Nat}
    (h0 : ¬enemiesOf w me = []) (hp : posOf w me = none) :
    berserkAct w me = w := by
  unfold berserkAct
  rw [if_neg h0, hp]

theorem berserkAct_eq_body {w : World} {me : Nat} {myx : Int}
    (h0 : ¬enemiesOf w me = []) (hp : posOf w me = some myx) :
    berserkAct w me =
      match pyMinBy (fun e2 => |posD w e2 - myx|) (enemiesOf w me) with
      | none => w
      | some closest =>
        if posD w closest - myx = 0 then w
        else if |posD w closest - myx| = 1 then attackF w me closest
        else (updateNoAct w me (.move (myx + sign (posD w closest - myx)))).1 := by
  unfold berserkAct
  rw [if_neg h0, hp]

theorem berserkAct_eq_closest {w : World} {me : Nat} {myx : Int}
    {closest : Nat} (h0 : ¬enemiesOf w me = []) (hp : posOf w me = some myx)
    (hm : pyMinBy (fun e2 => |posD w e2 - myx|) (enemiesOf w me) = some closest) :
    berserkAct w me =
      if posD w closest - myx = 0 then w
      else if |posD w closest - myx| = 1 then attackF w me closest
      else (updateNoAct w me (.move (myx + sign (posD w closest - myx)))).1 := by
  rw [berserkAct_eq_body h0 hp, hm]

theorem berserkAct_eq_nomin {w : World} {me : Nat} {myx : Int}
    (h0 : ¬enemiesOf w me = []) (hp : posOf w me = some myx)
    (hm : pyMinBy (fun e2 => |posD w e2 - myx|) (enemiesOf w me) = none) :
    berserkAct w me = w := by
  rw [berserkAct_eq_body h0 hp, hm]

/-- `BerserkAI.act` changes at most one entity's component list: the target
it attacks, or the acting entity itself (whose `Position` a move updates). -/
theorem berserkAct_comps_almost (w : World) (me : Nat) :
    ∃ t, ∀ a, a ≠ t → getComps (berserkAct w me) a = getComps w a := by
  by_cases h0 : enemiesOf w me = []
  · rw [berserkAct_eq_empty h0]
    exact ⟨me, fun a _ => rfl⟩
  · cases hp : posOf w me with
    | none =>
        rw [berserkAct_eq_nopos h0 hp]
        exact ⟨me, fun a _ => rfl⟩
    | some myx =>
        cases hm : pyMinBy (fun e2 => |posD w e2 - myx|) (enemiesOf w me) with
        | none =>
            rw [berserkAct_eq_nomin h0 hp hm]
            exact ⟨me, fun a _ => rfl⟩
        | some closest =>
            rw [berserkAct_eq_closest h0 hp hm]
            by_cases hd0 : posD w closest - myx = 0
            · rw [if_pos hd0]
              exact ⟨me, fun a _ => rfl⟩
            · rw [if_neg hd0]
              by_cases hd1 : |posD w closest - myx| = 1
              · rw [if_pos hd1]
                exact ⟨closest, fun a ha => attackF_comps_ne ha⟩
              · rw [if_neg hd1]
                refine ⟨me, fun a ha => ?_⟩
                unfold updateNoAct
                exact updateLoop_triv_comps_ne _ _ _ _ _ ha

/-- `BerserkAI.act` never changes the acting entity's own component classes:
an attack touches only the target, and a move only rewrites the position
coordinate. -/
theorem berserkAct_ctypes_me (w : World) (me : Nat) :
    ctypesOf (berserkAct w me) me = ctypesOf w me := by
  by_cases h0 : enemiesOf w me = []
  · rw [berserkAct_eq_empty h0]
  · cases hp : posOf w me with
    | none => rw [berserkAct_eq_nopos h0 hp]
    | some myx =>
        cases hm : pyMinBy (fun e2 => |posD w e2 - myx|) (enemiesOf w me) with
        | none => rw [berserkAct_eq_nomin h0 hp hm]
        | some closest =>
            rw [berserkAct_eq_closest h0 hp hm]
            by_cases hd0 : posD w closest - myx = 0
            · rw [if_pos hd0]
            · rw [if_neg hd0]
              by_cases hd1 : |posD w closest - myx| = 1
              · rw [if_pos hd1]
                have hne : me ≠ closest :=
                  fun hx => enemiesOf_mem_ne (pyMinBy_mem hm) hx.symm
                unfold ctypesOf
                rw [attackF_comps_ne hne]
              · rw [if_neg hd1]
                unfold updateNoAct
                exact updateLoop_move_ctypes _ _ _ _ _ me

theorem berserkAct_ctypes_sub (w : World) (me a : Nat) :
    (ctypesOf (berserkAct w me) a).Sublist (ctypesOf w a) := by
  by_cases h0 : enemiesOf w me = []
  · rw [berserkAct_eq_empty h0]
  · cases hp : posOf w me with
    | none => rw [berserkAct_eq_nopos h0 hp]
    | some myx =>
        cases hm : pyMinBy (fun e2 => |posD w e2 - myx|) (enemiesOf w me) with
        | none => rw [berserkAct_eq_nomin h0 hp hm]
        | some closest =>
            rw [berserkAct_eq_closest h0 hp hm]
            by_cases hd0 : posD w closest - myx = 0
            · rw [if_pos hd0]
            · rw [if_neg hd0]
              by_cases hd1 : |posD w closest - myx| = 1
              · rw [if_pos hd1]
                exact attackF_ctypes_sub w me closest a
              · rw [if_neg hd1]
                unfold updateNoAct
                rw [updateLoop_move_ctypes _ _ _ _ _ a]

theorem berserkAct_bucket_sub (w : World) (me : Nat) (t : CompType) :
    (bucketGet (berserkAct w me) t).Sublist (bucketGet w t) := by
  by_cases h0 : enemiesOf w me = []
  · rw [berserkAct_eq_empty h0]
  · cases hp : posOf w me with
    | none => rw [berserkAct_eq_nopos h0 hp]
    | some myx =>
        cases hm : pyMinBy (fun e2 => |posD w e2 - myx|) (enemiesOf w me) with
        | none => rw [berserkAct_eq_nomin h0 hp hm]
        | some closest =>
            rw [berserkAct_eq_closest h0 hp hm]
            by_cases hd0 : posD w closest - myx = 0
            · rw [if_pos hd0]
            · rw [if_neg hd0]
              by_cases hd1 : |posD w closest - myx| = 1
              · rw [if_pos hd1]
                exact attackF_bucket_sub w me closest t
              · rw [if_neg hd1]
                unfold updateNoAct
                exact updateLoop_triv_bucket_sub _ _ _ _ _ t

/-! ### One `Turn` dispatch changes at most one entity -/

/-- During a `Turn` fold over an entity with at most one remaining `Actor`
component, the only world change is the (at most one) controller run: some
single entity `t` may change, the acting entity keeps its component classes,
and no entity gains component classes. -/
theorem updateLoop_turn_almost :
    ∀ (fuel : Nat) (w : World) (e i : Nat),
      ((ctypesOf w e).drop i).count CompType.actor ≤ 1 →
      ∃ t, (∀ a, a ≠ t →
              getComps (updateLoop berserkAct fuel w e i .turn).1 a = getComps w a) ∧
        ctypesOf (updateLoop berserkAct fuel w e i .turn).1 e = ctypesOf w e ∧
        (∀ a, (ctypesOf (updateLoop berserkAct fuel w e i .turn).1 a).Sublist
          (ctypesOf w a))
  | 0, w, e, i, _ =>
      ⟨e, fun _ _ => rfl, rfl, fun _ => List.Sublist.refl _⟩
  | fuel + 1, w, e, i, hcnt => by
      cases hg : (getComps w e).get? i with
      | none =>
          rw [updateLoop_succ_none berserkAct fuel w e i .turn hg]
          exact ⟨e, fun _ _ => rfl, rfl, fun _ => List.Sublist.refl _⟩
      | some c =>
          have hgct : (ctypesOf w e).get? i = some (ctype c) := by
            unfold ctypesOf
            rw [List.get?_map, hg]
            rfl
          have hdropct : (ctypesOf w e).drop i =
              ctype c :: (ctypesOf w e).drop (i + 1) :=
            list_drop_cons_of_get? hgct
          by_cases hact : ctype c = CompType.actor
          · have hc : c = Component.actor := by
              cases c with
              | actor => rfl
              | nameable n => simp [ctype] at hact
              | position x => simp [ctype] at hact
              | destructible m h => simp [ctype] at hact
              | attacker a dm => simp [ctype] at hact
              | defender p => simp [ctype] at hact
            subst hc
            have hs := stepComp_turn_actor berserkAct w e i
            rw [updateLoop_step_some berserkAct fuel w (berserkAct w e) e i
              .turn .turn .actor hg hs]
            have hcnt2 : ((ctypesOf w e).drop (i + 1)).count CompType.actor = 0 := by
              rw [hdropct] at hcnt
              rw [List.count_cons] at hcnt
              rw [hact] at hcnt
              simp at hcnt
              omega
            have hme := berserkAct_ctypes_me w e
            have hnoact : ∀ c2 ∈ (getComps (berserkAct w e) e).drop (i + 1),
                ctype c2 ≠ CompType.actor := by
              intro c2 hc2 hcx
              have hmem : CompType.actor ∈ (ctypesOf (berserkAct w e) e).drop (i + 1) := by
                unfold ctypesOf
                rw [← List.map_drop]
                exact hcx ▸ List.mem_map_of_mem ctype hc2
              rw [hme] at hmem
              exact (List.count_eq_zero.mp hcnt2) hmem
            rw [updateLoop_turn_noactor berserkAct fuel (berserkAct w e) e
              (i + 1) hnoact]
            obtain ⟨t, ht⟩ := berserkAct_comps_almost w e
            exact ⟨t, ht, hme, fun a => berserkAct_ctypes_sub w e a⟩
          · have hs := @stepComp_turn_nonactor berserkAct w e i c hact
            rw [updateLoop_step_some berserkAct fuel w w e i .turn .turn c hg hs]
            have hcnt2 : ((ctypesOf w e).drop (i + 1)).count CompType.actor ≤ 1 := by
              rw [hdropct, List.count_cons] at hcnt
              omega
            exact updateLoop_turn_almost fuel w e (i + 1) hcnt2

/-! ### The scheduler's remove-while-iterating filter -/

theorem pyRemoveAux_succ_none {p : Nat → Bool} {fuel : Nat} {l : List Nat}
    {k : Nat} (h : l.get? k = none) : pyRemoveAux p (fuel + 1) l k = l := by
  unfold pyRemoveAux
  rw [h]

theorem pyRemoveAux_succ_some {p : Nat → Bool} {fuel : Nat} {l : List Nat}
    {k x : Nat} (h : l.get? k = some x) :
    pyRemoveAux p (fuel + 1) l k =
      if p x = true then pyRemoveAux p fuel (l.erase x) (k + 1)
      else pyRemoveAux p fuel l (k + 1) := by
  conv_lhs => unfold pyRemoveAux
  rw [h]

theorem pyRemoveAux_sublist (p : Nat → Bool) :
    ∀ (fuel : Nat) (l : List Nat) (k : Nat),
      (pyRemoveAux p fuel l k).Sublist l
  | 0, _, _ => List.Sublist.refl _
  | fuel + 1, l, k => by
      cases hg : l.get? k with
      | none =>
          rw [pyRemoveAux_succ_none hg]
      | some x =>
          rw [pyRemoveAux_succ_some hg]
          by_cases hp : p x = true
          · rw [if_pos hp]
            exact (pyRemoveAux_sublist p fuel (l.erase x) (k + 1)).trans
              (List.erase_sublist x l)
          · rw [if_neg hp]
            exact pyRemoveAux_sublist p fuel l (k + 1)

/-- Python's `for x in q: if p(x): q.remove(x)` removes every element
satisfying `p`, *provided* at most one element does.  (With two adjacent
candidates the iterator-index skip could miss the second; one is what a
single turn of this program can produce.) -/
theorem pyRemoveAux_single (p : Nat → Bool) (t : Nat) :
    ∀ (fuel : Nat) (l : List Nat) (k : Nat),
      l.Nodup → (∀ x ∈ l, p x = true → x = t) →
      (∀ j x, j < k → l.get? j = some x → p x = false) →
      l.length ≤ fuel + k →
      ∀ x ∈ pyRemoveAux p fuel l k, p x = false
  | 0, l, k, _, _, hpre, hlen, x, hx => by
      obtain ⟨j, hj⟩ := List.mem_iff_get?.mp hx
      have hjlen : j < l.length := by
        rw [List.get?_eq_some] at hj
        exact hj.1
      exact hpre j x (by omega) hj
  | fuel + 1, l, k, hnd, hone, hpre, hlen, x, hx => by
      cases hg : l.get? k with
      | none =>
          rw [pyRemoveAux_succ_none hg] at hx
          have hk : l.length ≤ k := List.get?_eq_none.mp hg
          obtain ⟨j, hj⟩ := List.mem_iff_get?.mp hx
          have hjlen : j < l.length := by
            rw [List.get?_eq_some] at hj
            exact hj.1
          exact hpre j x (by omega) hj
      | some y =>
          rw [pyRemoveAux_succ_some hg] at hx
          by_cases hp : p y = true
          · rw [if_pos hp] at hx
            have hyt : y = t := hone y (List.get?_mem hg) hp
            have hgood : ∀ z ∈ l.erase y, p z = false := by
              intro z hz
              cases hpz : p z with
              | false => rfl
              | true =>
                  have hzl : z ∈ l := List.erase_subset y l hz
                  have : z = y := (hone z hzl hpz).trans hyt.symm
                  subst this
                  exact absurd hz (hnd.not_mem_erase)
            have hsub := pyRemoveAux_sublist p fuel (l.erase y) (k + 1)
            exact hgood x (hsub.subset hx)
          · rw [if_neg hp] at hx
            refine pyRemoveAux_single p t fuel l (k + 1) hnd hone ?_ (by omega) x hx
            intro j z hj hjz
            by_cases hjk : j = k
            · subst hjk
              rw [hg] at hjz
              cases hjz
              exact Bool.of_not_eq_true hp ▸ rfl
            · exact hpre j z (by omega) hjz

theorem schedStep_cons (w : World) (e : Nat) (rest : List Nat) :
    schedStep w (e :: rest) =
      if (pyRemoveAux (fun x => !hasActor (update w e .turn).1 x)
            rest.length rest 0).length = 0
      then SchedStepResult.halt e
      else SchedStepResult.next (update w e .turn).1
        (pyRemoveAux (fun x => !hasActor (update w e .turn).1 x)
          rest.length rest 0 ++ [e]) := rfl

/-- C3: the scheduler invariant "every queued entity holds an `Actor`" (plus
queue distinctness and per-entity class distinctness) is preserved by one
iteration of the turn loop: a turn detaches at most one `Actor` (the killed
target's), and the post-turn cleanup pass removes exactly that entity from
the remaining queue before the queue is used again, so the entity popped and
dispatched a `Turn` always still holds an `Actor` component. -/
theorem c3_scheduler_never_dispatches_actorless (w w2 : World)
    (q q2 : List Nat)
    (hwf : ∀ a, (ctypesOf w a).Nodup)
    (hnd : q.Nodup)
    (hact : ∀ x ∈ q, hasActor w x = true)
    (hstep : schedStep w q = SchedStepResult.next w2 q2) :
    (∀ a, (ctypesOf w2 a).Nodup) ∧ q2.Nodup ∧
      (∀ x ∈ q2, hasActor w2 x = true) := by
  cases q with
  | nil => exact absurd hstep (by simp [schedStep])
  | cons e rest =>
      rw [schedStep_cons] at hstep
      by_cases hz : (pyRemoveAux (fun x => !hasActor (update w e .turn).1 x)
          rest.length rest 0).length = 0
      · rw [if_pos hz] at hstep
        exact absurd hstep (by simp)
      · rw [if_neg hz] at hstep
        injection hstep with hw hq
        have hcnt : ((ctypesOf w e).drop 0).count CompType.actor ≤ 1 := by
          simp only [List.drop_zero]
          exact List.nodup_iff_count_le_one.mp (hwf e) _
        obtain ⟨t, hloc, hme, hsub⟩ :=
          updateLoop_turn_almost (getComps w e).length w e 0 hcnt
        have hW1 : (update w e .turn).1 =
            (updateLoop berserkAct (getComps w e).length w e 0 .turn).1 := rfl
        have hndr := List.nodup_cons.mp hnd
        have hbadone : ∀ x ∈ rest,
            (!hasActor (update w e .turn).1 x) = true → x = t := by
          intro x hx hbx
          by_contra hxt
          have hcomps := hloc x hxt
          have hsame : hasActor (update w e .turn).1 x = hasActor w x := by
            rw [hW1]
            exact hasActor_congr hcomps
          rw [hsame, hact x (List.mem_cons_of_mem e hx)] at hbx
          simp at hbx
        have hall := pyRemoveAux_single
          (fun x => !hasActor (update w e .turn).1 x) t rest.length rest 0
          hndr.2 hbadone (fun j x hj _ => absurd hj (Nat.not_lt_zero j))
          (by omega)
        have hrest1 : ∀ x ∈ pyRemoveAux
            (fun x => !hasActor (update w e .turn).1 x) rest.length rest 0,
            hasActor (update w e .turn).1 x = true := by
          intro x hx
          have := hall x hx
          simpa using this
        have hsubr := pyRemoveAux_sublist
          (fun x => !hasActor (update w e .turn).1 x) rest.length rest 0
        refine ⟨?_, ?_, ?_⟩
        · intro a
          rw [← hw]
          exact List.Nodup.sublist (hW1 ▸ hsub a) (hwf a)
        · rw [← hq]
          have hnd1 := List.Nodup.sublist hsubr hndr.2
          have hde : e ∉ pyRemoveAux
              (fun x => !hasActor (update w e .turn).1 x) rest.length rest 0 :=
            fun hc => hndr.1 (hsubr.subset hc)
          simp [List.nodup_append, hnd1]
          exact fun hc => hde hc
        · intro x hx
          rw [← hq] at hx
          rw [← hw]
          rcases List.mem_append.mp hx with hx1 | hx1
          · exact hrest1 x hx1
          · have hxe : x = e := by simpa using hx1
            have hx2 : hasActor (update w e .turn).1 e = hasActor w e := by
              rw [hW1]
              exact hasActor_congr_ct hme
            rw [hxe, hx2]
            exact hact e (by simp)

/-! ### Membership under the primitive world updates -/

theorem getComps_setEnt_absent {w : World} {e : Nat} {cs : List Component}
    (h : lookupA w.ents e = none) :
    getComps (setEnt w e cs) e = getComps w e := by
  unfold getComps setEnt
  rw [lookupA_setA_self, h]
  rfl

theorem mem_getComps_setComp {w : World} {e i : Nat} {c : Component}
    {a2 : Nat} {c2 : Component}
    (h : c2 ∈ getComps (setComp w e i c) a2) :
    c2 ∈ getComps w a2 ∨ c2 = c := by
  by_cases ha : a2 = e
  · subst ha
    cases hex : lookupA w.ents a2 with
    | none =>
        unfold setComp at h
        rw [getComps_setEnt_absent hex] at h
        exact Or.inl h
    | some l =>
        rw [getComps_setComp_self (by unfold entExists; rw [hex]; rfl)] at h
        exact List.mem_or_eq_of_mem_set h
  · rw [getComps_setComp_ne ha] at h
    exact Or.inl h

theorem mem_getComps_detach {w : World} {e : Nat} {t : CompType}
    {a2 : Nat} {c2 : Component}
    (h : c2 ∈ getComps (detach w e t) a2) : c2 ∈ getComps w a2 := by
  by_cases ha : a2 = e
  · subst ha
    unfold detach at h
    cases hf : firstIdx (fun c => ctype c == t) (getComps w a2) with
    | none => rw [hf] at h; exact h
    | some j =>
        rw [hf] at h
        obtain ⟨c0, hc0, _⟩ := firstIdx_get hf
        have hex : entExists w a2 := entExists_of_get? hc0
        simp only [getComps_bucketErase, getComps_setEnt_self hex] at h
        exact (List.eraseIdx_sublist _ j).subset h
  · rw [detach_comps_ne ha] at h
    exact h

theorem list_mem_eraseIdx_ne {α : Type} {b t : α} :
    ∀ {l : List α} {j : Nat}, l.get? j = some t → b ≠ t → b ∈ l →
      b ∈ l.eraseIdx j
  | [], j, h, _, _ => by simp at h
  | x :: xs, 0, h, hne, hmem => by
      simp only [List.get?_cons_zero, Option.some.injEq] at h
      subst h
      simp only [List.eraseIdx]
      rcases List.mem_cons.mp hmem with h1 | h1
      · exact absurd h1 hne
      · exact h1
  | x :: xs, j + 1, h, hne, hmem => by
      simp only [List.get?_cons_succ] at h
      simp only [List.eraseIdx, List.mem_cons]
      rcases List.mem_cons.mp hmem with h1 | h1
      · exact Or.inl h1
      · exact Or.inr (list_mem_eraseIdx_ne h hne h1)

/-! ### Preservation of `HpLeMax` (the part of the spec's hp invariant the
code actually maintains) -/

theorem modify_hp_HpLeMax {w : World} {e i : Nat} {m h a : Int}
    (hP : HpLeMax w) : HpLeMax (modify_hp w e i m h a) := by
  unfold modify_hp
  by_cases hl : h > 0
  · rw [if_pos hl]
    have h1 : HpLeMax (setComp w e i (.destructible m (min (h + a) m))) := by
      intro a2 m2 h2 hmem
      rcases mem_getComps_setComp hmem with hold | hnew
      · exact hP a2 m2 h2 hold
      · cases hnew
        exact min_le_right _ _
    by_cases hd : min (h + a) m ≤ 0
    · rw [if_pos hd]
      intro a2 m2 h2 hmem
      exact h1 a2 m2 h2 (mem_getComps_detach hmem)
    · rw [if_neg hd]
      exact h1
  · rw [if_neg hl]
    exact hP

theorem rngTail_HpLeMax {w : World} (hP : HpLeMax w) : HpLeMax (rngTail w) :=
  fun a m h hmem => hP a m h (by rw [← getComps_rngTail w a]; exact hmem)

theorem stepComp_HpLeMax (actF : World → Nat → World)
    (hact : ∀ w0 a, HpLeMax w0 → HpLeMax (actF w0 a)) :
    ∀ (w : World) (e i : Nat) (c : Component) (ev : Event),
      (getComps w e).get? i = some c → HpLeMax w →
      HpLeMax (stepComp actF w e i c ev).1 := by
  intro w e i c ev _ hP
  rcases stepComp_shape actF w e i c ev with
    hs | ⟨x, d, hc, hs⟩ | ⟨m, hh, am, hc, hs⟩ | hs | hs
  · rw [hs]; exact hP
  · rw [hs]
    intro a2 m2 h2 hmem
    rcases mem_getComps_setComp hmem with hold | hnew
    · exact hP a2 m2 h2 hold
    · simp at hnew
  · rw [hs]; exact modify_hp_HpLeMax hP
  · rw [hs]; exact rngTail_HpLeMax hP
  · rw [hs]; exact hact w e hP

theorem updateNoAct_HpLeMax {w : World} {e : Nat} {ev : Event}
    (hP : HpLeMax w) : HpLeMax (updateNoAct w e ev).1 :=
  updateLoop_pres HpLeMax trivAct
    (stepComp_HpLeMax trivAct (fun _ _ h => h)) _ w e 0 ev hP

theorem attackF_HpLeMax {w : World} {atk tgt : Nat} (hP : HpLeMax w) :
    HpLeMax (attackF w atk tgt) := by
  cases hga : get_component w atk .attacker with
  | none => rw [attackF_eq_none tgt hga]; exact hP
  | some c =>
      have hct := get_component_ctype hga
      cases c with
      | attacker acc dmg =>
          rw [attackF_eq tgt hga]
          by_cases hb : (chance w acc).1 = true
          · rw [if_pos hb]
            exact updateNoAct_HpLeMax (rngTail_HpLeMax hP)
          · rw [if_neg hb]
            exact rngTail_HpLeMax hP
      | nameable n => simp [ctype] at hct
      | position x => simp [ctype] at hct
      | destructible m h => simp [ctype] at hct
      | defender p => simp [ctype] at hct
      | actor => simp [ctype] at hct

theorem berserkAct_HpLeMax {w : World} {me : Nat} (hP : HpLeMax w) :
    HpLeMax (berserkAct w me) := by
  by_cases h0 : enemiesOf w me = []
  · rw [berserkAct_eq_empty h0]; exact hP
  · cases hp : posOf w me with
    | none => rw [berserkAct_eq_nopos h0 hp]; exact hP
    | some myx =>
        cases hm : pyMinBy (fun e2 => |posD w e2 - myx|) (enemiesOf w me) with
        | none => rw [berserkAct_eq_nomin h0 hp hm]; exact hP
        | some closest =>
            rw [berserkAct_eq_closest h0 hp hm]
            by_cases hd0 : posD w closest - myx = 0
            · rw [if_pos hd0]; exact hP
            · rw [if_neg hd0]
              by_cases hd1 : |posD w closest - myx| = 1
              · rw [if_pos hd1]; exact attackF_HpLeMax hP
              · rw [if_neg hd1]; exact updateNoAct_HpLeMax hP

theorem update_HpLeMax {w : World} {e : Nat} {ev : Event} (hP : HpLeMax w) :
    HpLeMax (update w e ev).1 :=
  updateLoop_pres HpLeMax berserkAct
    (stepComp_HpLeMax berserkAct (fun w0 a h => berserkAct_HpLeMax h))
    _ w e 0 ev hP

/-! ### Preservation of the well-formedness `WF9` -/

theorem detach_cases (w : World) (e : Nat) (t : CompType) :
    detach w e t = w ∨
    ∃ j c, firstIdx (fun c0 => ctype c0 == t) (getComps w e) = some j ∧
      (getComps w e).get? j = some c ∧ ctype c = t ∧
      detach w e t = bucketErase (setEnt w e ((getComps w e).eraseIdx j)) t e := by
  unfold detach
  cases hf : firstIdx (fun c0 => ctype c0 == t) (getComps w e) with
  | none => exact Or.inl rfl
  | some j =>
      obtain ⟨c, hc, hpc⟩ := firstIdx_get hf
      rw [beq_iff_eq] at hpc
      exact Or.inr ⟨j, c, rfl, hc, hpc, rfl⟩

theorem detach_bucket_self_erase {w : World} {e : Nat} {t : CompType}
    {j : Nat} {c : Component}
    (hc : (getComps w e).get? j = some c)
    (hd : detach w e t = bucketErase (setEnt w e ((getComps w e).eraseIdx j)) t e) :
    bucketGet (detach w e t) t = (bucketGet w t).erase e := by
  rw [hd, bucketGet_bucketErase_self, bucketGet_setEnt]

theorem deadE_congr {w1 w2 : World} {a : Nat}
    (h : getComps w1 a = getComps w2 a) : deadE w1 a ↔ deadE w2 a := by
  unfold deadE
  rw [h]

theorem detach_actor_preserves {w1 : World} {e : Nat}
    (hct : CtypesNodupAll w1) (hbn : BucketsNodup w1) (hbs : BucketSound w1)
    (hdna2 : ∀ a2, a2 ≠ e → deadE w1 a2 → hasActor w1 a2 = false) :
    WF9 (detach w1 e .actor) := by
  refine ⟨?_, ?_, ?_, ?_⟩
  · intro a2
    exact List.Nodup.sublist (detach_ctypes_sublist_all w1 e .actor a2) (hct a2)
  · intro t
    by_cases ht : t = CompType.actor
    · subst ht
      rcases detach_buckets_self_cases w1 e .actor with hcase | hcase
      · rw [hcase]; exact hbn _
      · rw [hcase]; exact (hbn _).erase e
    · rw [detach_buckets_ne ht]; exact hbn t
  · intro a2 hmem
    rcases detach_cases w1 e .actor with hcase | ⟨j, c, hf, hc, hpct, hd⟩
    · rw [hcase] at hmem ⊢
      exact hbs a2 hmem
    · rw [detach_bucket_self_erase hc hd] at hmem
      by_cases ha2 : a2 = e
      · subst ha2
        exact absurd hmem ((hbn CompType.actor).not_mem_erase)
      · have hmem2 : a2 ∈ bucketGet w1 .actor :=
          (List.erase_sublist e _).subset hmem
        have h1 := hbs a2 hmem2
        have hcomps : getComps (detach w1 e .actor) a2 = getComps w1 a2 :=
          detach_comps_ne ha2
        rw [hasActor_congr hcomps]
        exact h1
  · intro a2 hdead
    by_cases ha2 : a2 = e
    · subst ha2
      exact detach_actor_not_hasActor (hct a2)
    · have hcomps : getComps (detach w1 e .actor) a2 = getComps w1 a2 :=
        detach_comps_ne ha2
      rw [hasActor_congr hcomps]
      exact hdna2 a2 ha2 ((deadE_congr hcomps).mp hdead)

theorem modify_hp_WF9 {w : World} {e i : Nat} {m h a : Int}
    (hget : (getComps w e).get? i = some (.destructible m h))
    (hw : WF9 w) : WF9 (modify_hp w e i m h a) := by
  obtain ⟨hct, hbn, hbs, hdna⟩ := hw
  unfold modify_hp
  by_cases hl : h > 0
  · rw [if_pos hl]
    have hcteq : ∀ a2,
        ctypesOf (setComp w e i (.destructible m (min (h + a) m))) a2 =
          ctypesOf w a2 :=
      setComp_ctypes_same hget rfl
    have hct1 : CtypesNodupAll (setComp w e i (.destructible m (min (h + a) m))) :=
      fun a2 => (hcteq a2).symm ▸ hct a2
    have hbn1 : BucketsNodup (setComp w e i (.destructible m (min (h + a) m))) :=
      fun t => by rw [bucketGet_setComp]; exact hbn t
    have hbs1 : BucketSound (setComp w e i (.destructible m (min (h + a) m))) := by
      intro a2 hmem
      rw [bucketGet_setComp] at hmem
      rw [hasActor_congr_ct (hcteq a2)]
      exact hbs a2 hmem
    by_cases hd : min (h + a) m ≤ 0
    · rw [if_pos hd]
      refine detach_actor_preserves hct1 hbn1 hbs1 ?_
      intro a2 ha2 hdead
      have hcomps : getComps (setComp w e i (.destructible m (min (h + a) m))) a2 =
          getComps w a2 := getComps_setComp_ne ha2
      rw [hasActor_congr hcomps]
      exact hdna a2 ((deadE_congr hcomps).mp hdead)
    · rw [if_neg hd]
      refine ⟨hct1, hbn1, hbs1, ?_⟩
      intro a2 hdead
      by_cases ha2 : a2 = e
      · subst ha2
        obtain ⟨m2, h2, hmem, hle⟩ := hdead
        rcases mem_getComps_setComp hmem with hold | hnew
        · have hdw : Component.destructible m h ∈ getComps w a2 :=
            List.get?_mem hget
          have heq := List.inj_on_of_nodup_map (hct a2) hold hdw
            (by simp [ctype])
          cases heq
          omega
        · cases hnew
          omega
      · have hcomps : getComps (setComp w e i (.destructible m (min (h + a) m))) a2 =
            getComps w a2 := getComps_setComp_ne ha2
        rw [hasActor_congr hcomps]
        exact hdna a2 ((deadE_congr hcomps).mp hdead)
  · rw [if_neg hl]
    exact ⟨hct, hbn, hbs, hdna⟩

theorem rngTail_WF9 {w : World} (hw : WF9 w) : WF9 (rngTail w) := hw

theorem setComp_position_WF9 {w : World} {e i : Nat} {x d : Int}
    (hget : (getComps w e).get? i = some (.position x))
    (hw : WF9 w) : WF9 (setComp w e i (.position d)) := by
  obtain ⟨hct, hbn, hbs, hdna⟩ := hw
  have hcteq : ∀ a2, ctypesOf (setComp w e i (.position d)) a2 = ctypesOf w a2 :=
    setComp_ctypes_same hget rfl
  refine ⟨fun a2 => (hcteq a2).symm ▸ hct a2,
    fun t => by rw [bucketGet_setComp]; exact hbn t, ?_, ?_⟩
  · intro a2 hmem
    rw [bucketGet_setComp] at hmem
    rw [hasActor_congr_ct (hcteq a2)]
    exact hbs a2 hmem
  · intro a2 hdead
    rw [hasActor_congr_ct (hcteq a2)]
    refine hdna a2 ?_
    obtain ⟨m2, h2, hmem, hle⟩ := hdead
    rcases mem_getComps_setComp hmem with hold | hnew
    · exact ⟨m2, h2, hold, hle⟩
    · simp at hnew

theorem stepComp_WF9 (actF : World → Nat → World)
    (hact : ∀ w0 a, WF9 w0 → WF9 (actF w0 a)) :
    ∀ (w : World) (e i : Nat) (c : Component) (ev : Event),
      (getComps w e).get? i = some c → WF9 w →
      WF9 (stepComp actF w e i c ev).1 := by
  intro w e i c ev hg hw
  rcases stepComp_shape actF w e i c ev with
    hs | ⟨x, d, hc, hs⟩ | ⟨m, hh, am, hc, hs⟩ | hs | hs
  · rw [hs]; exact hw
  · rw [hs]; exact setComp_position_WF9 (hc ▸ hg) hw
  · rw [hs]; exact modify_hp_WF9 (hc ▸ hg) hw
  · rw [hs]; exact rngTail_WF9 hw
  · rw [hs]; exact hact w e hw

theorem updateNoAct_WF9 {w : World} {e : Nat} {ev : Event} (hw : WF9 w) :
    WF9 (updateNoAct w e ev).1 :=
  updateLoop_pres WF9 trivAct (stepComp_WF9 trivAct (fun _ _ h => h))
    _ w e 0 ev hw

theorem attackF_WF9 {w : World} {atk tgt : Nat} (hw : WF9 w) :
    WF9 (attackF w atk tgt) := by
  cases hga : get_component w atk .attacker with
  | none => rw [attackF_eq_none tgt hga]; exact hw
  | some c =>
      have hctc := get_component_ctype hga
      cases c with
      | attacker acc dmg =>
          rw [attackF_eq tgt hga]
          by_cases hb : (chance w acc).1 = true
          · rw [if_pos hb]
            exact updateNoAct_WF9 (rngTail_WF9 hw)
          · rw [if_neg hb]
            exact rngTail_WF9 hw
      | nameable n => simp [ctype] at hctc
      | position x => simp [ctype] at hctc
      | destructible m h => simp [ctype] at hctc
      | defender p => simp [ctype] at hctc
      | actor => simp [ctype] at hctc

theorem berserkAct_WF9 {w : World} {me : Nat} (hw : WF9 w) :
    WF9 (berserkAct w me) := by
  by_cases h0 : enemiesOf w me = []
  · rw [berserkAct_eq_empty h0]; exact hw
  · cases hp : posOf w me with
    | none => rw [berserkAct_eq_nopos h0 hp]; exact hw
    | some myx =>
        cases hm : pyMinBy (fun e2 => |posD w e2 - myx|) (enemiesOf w me) with
        | none => rw [berserkAct_eq_nomin h0 hp hm]; exact hw
        | some closest =>
            rw [berserkAct_eq_closest h0 hp hm]
            by_cases hd0 : posD w closest - myx = 0
            · rw [if_pos hd0]; exact hw
            · rw [if_neg hd0]
              by_cases hd1 : |posD w closest - myx| = 1
              · rw [if_pos hd1]; exact attackF_WF9 hw
              · rw [if_neg hd1]; exact updateNoAct_WF9 hw

theorem update_WF9 {w : World} {e : Nat} {ev : Event} (hw : WF9 w) :
    WF9 (update w e ev).1 :=
  updateLoop_pres WF9 berserkAct
    (stepComp_WF9 berserkAct (fun w0 a h => berserkAct_WF9 h))
    _ w e 0 ev hw

/-! ### The type-index invariant under `attach` / `detach` -/

theorem attach_comps_self {w : World} {e : Nat} {c : Component}
    (hex : entExists w e) :
    getComps (attach w e c) e = getComps w e ++ [c] := by
  unfold attach
  rw [getComps_bucketAppend, getComps_setEnt_self hex]

theorem attach_comps_ne {w : World} {e a : Nat} {c : Component} (h : a ≠ e) :
    getComps (attach w e c) a = getComps w a := by
  unfold attach
  rw [getComps_bucketAppend, getComps_setEnt_ne h]

theorem attach_bucket_self (w : World) (e : Nat) (c : Component) :
    bucketGet (attach w e c) (ctype c) = bucketGet w (ctype c) ++ [e] := by
  unfold attach
  rw [bucketGet_bucketAppend_self, bucketGet_setEnt]

theorem attach_bucket_ne {w : World} {e : Nat} {c : Component} {t : CompType}
    (h : t ≠ ctype c) :
    bucketGet (attach w e c) t = bucketGet w t := by
  unfold attach
  rw [bucketGet_bucketAppend_ne h, bucketGet_setEnt]

theorem attach_Inv8 {w : World} {e : Nat} {c : Component}
    (hex : entExists w e) (hnew : ctype c ∉ ctypesOf w e)
    (h : Inv8 w) : Inv8 (attach w e c) := by
  obtain ⟨hidx, hct, hbn⟩ := h
  have hcomps : ctypesOf (attach w e c) e = ctypesOf w e ++ [ctype c] := by
    unfold ctypesOf
    rw [attach_comps_self hex, List.map_append]
    rfl
  refine ⟨?_, ?_, ?_⟩
  · intro t a
    by_cases ha : a = e
    · subst ha
      by_cases ht : t = ctype c
      · subst ht
        rw [attach_bucket_self, hcomps]
        simp
      · rw [attach_bucket_ne ht, hcomps]
        constructor
        · intro hm
          exact List.mem_append_left _ ((hidx t a).mp hm)
        · intro hm
          rcases List.mem_append.mp hm with hm1 | hm1
          · exact (hidx t a).mpr hm1
          · exact absurd (by simpa using hm1) ht
    · have hcts : ctypesOf (attach w e c) a = ctypesOf w a := by
        unfold ctypesOf
        rw [attach_comps_ne ha]
      by_cases ht : t = ctype c
      · subst ht
        rw [attach_bucket_self, hcts]
        constructor
        · intro hm
          rcases List.mem_append.mp hm with hm1 | hm1
          · exact (hidx _ a).mp hm1
          · exact absurd (by simpa using hm1) ha
        · intro hm
          exact List.mem_append_left _ ((hidx _ a).mpr hm)
      · rw [attach_bucket_ne ht, hcts]
        exact hidx t a
  · intro a
    by_cases ha : a = e
    · subst ha
      rw [hcomps]
      have : ctype c ∉ ctypesOf w a := hnew
      simp [List.nodup_append, hct a, this]
    · unfold ctypesOf
      rw [attach_comps_ne ha]
      exact hct a
  · intro t
    by_cases ht : t = ctype c
    · subst ht
      rw [attach_bucket_self]
      have hne : e ∉ bucketGet w (ctype c) :=
        fun hm => hnew ((hidx (ctype c) e).mp hm)
      simp [List.nodup_append, hbn (ctype c), hne]
    · rw [attach_bucket_ne ht]
      exact hbn t

theorem detach_Inv8 {w : World} {e : Nat} {t : CompType}
    (h : Inv8 w) : Inv8 (detach w e t) := by
  obtain ⟨hidx, hct, hbn⟩ := h
  rcases detach_cases w e t with hcase | ⟨j, c, hf, hc, hpct, hd⟩
  · rw [hcase]
    exact ⟨hidx, hct, hbn⟩
  · have hex : entExists w e := entExists_of_get? hc
    have hcomps : getComps (detach w e t) e = (getComps w e).eraseIdx j := by
      rw [hd]
      simp [getComps_setEnt_self hex]
    have hctse : ctypesOf (detach w e t) e = (ctypesOf w e).eraseIdx j := by
      unfold ctypesOf
      rw [hcomps, list_eraseIdx_map]
    have hgetct : (ctypesOf w e).get? j = some t := by
      unfold ctypesOf
      rw [List.get?_map, hc]
      simp [hpct]
    have hbself : bucketGet (detach w e t) t = (bucketGet w t).erase e :=
      detach_bucket_self_erase hc hd
    have hbne : ∀ t2, t2 ≠ t → bucketGet (detach w e t) t2 = bucketGet w t2 := by
      intro t2 ht2
      rw [hd, bucketGet_bucketErase_ne ht2, bucketGet_setEnt]
    refine ⟨?_, ?_, ?_⟩
    · intro t2 a
      by_cases ha : a = e
      · subst ha
        by_cases ht2 : t2 = t
        · subst ht2
          rw [hbself, hctse]
          constructor
          · intro hm
            exact absurd hm ((hbn t2).not_mem_erase)
          · intro hm
            exact absurd hm (nodup_eraseIdx_not_mem (hct a) hgetct)
        · rw [hbne t2 ht2, hctse]
          constructor
          · intro hm
            exact list_mem_eraseIdx_ne hgetct ht2 ((hidx t2 a).mp hm)
          · intro hm
            exact (hidx t2 a).mpr ((List.eraseIdx_sublist _ j).subset hm)
      · have hcts : ctypesOf (detach w e t) a = ctypesOf w a := by
          unfold ctypesOf
          rw [detach_comps_ne ha]
        by_cases ht2 : t2 = t
        · subst ht2
          rw [hbself, hcts, List.mem_erase_of_ne ha]
          exact hidx t2 a
        · rw [hbne t2 ht2, hcts]
          exact hidx t2 a
    · intro a
      exact List.Nodup.sublist (detach_ctypes_sublist_all w e t a) (hct a)
    · intro t2
      by_cases ht2 : t2 = t
      · subst ht2
        rw [hbself]
        exact (hbn t2).erase e
      · rw [hbne t2 ht2]
        exact hbn t2

/-! ### `min(key=...)` returns the first minimum -/

theorem pyMinBy_foldl_le (f : Nat → Int) :
    ∀ (xs : List Nat) (b : Nat),
      f (xs.foldl (fun best y => if f y < f best then y else best) b) ≤ f b ∧
      ∀ y ∈ xs, f (xs.foldl (fun best y => if f y < f best then y else best) b) ≤ f y
  | [], b => ⟨le_refl _, by simp⟩
  | y :: ys, b => by
      simp only [List.foldl_cons]
      by_cases hy : f y < f b
      · rw [if_pos hy]
        obtain ⟨h1, h2⟩ := pyMinBy_foldl_le f ys y
        refine ⟨le_trans h1 (le_of_lt hy), ?_⟩
        intro z hz
        rcases List.mem_cons.mp hz with hz1 | hz1
        · exact hz1 ▸ h1
        · exact h2 z hz1
      · rw [if_neg hy]
        obtain ⟨h1, h2⟩ := pyMinBy_foldl_le f ys b
        refine ⟨h1, ?_⟩
        intro z hz
        rcases List.mem_cons.mp hz with hz1 | hz1
        · exact hz1 ▸ le_trans h1 (not_lt.mp hy)
        · exact h2 z hz1

theorem pyMinBy_le {f : Nat → Int} {l : List Nat} {c : Nat}
    (h : pyMinBy f l = some c) : ∀ y ∈ l, f c ≤ f y := by
  cases l with
  | nil => simp [pyMinBy] at h
  | cons x xs =>
      simp only [pyMinBy, Option.some.injEq] at h
      obtain ⟨h1, h2⟩ := pyMinBy_foldl_le f xs x
      intro y hy
      rcases List.mem_cons.mp hy with hy1 | hy1
      · rw [← h, hy1]
        exact h1
      · rw [← h]
        exact h2 y hy1

theorem pyMinBy_foldl_cases (f : Nat → Int) :
    ∀ (xs : List Nat) (b : Nat),
      (xs.foldl (fun best y => if f y < f best then y else best) b = b ∧
        ∀ y ∈ xs, ¬ f y < f b) ∨
      ∃ l1 y l2, xs = l1 ++ y :: l2 ∧ f y < f b ∧ (∀ z ∈ l1, ¬ f z < f b) ∧
        xs.foldl (fun best y => if f y < f best then y else best) b =
          l2.foldl (fun best y => if f y < f best then y else best) y
  | [], b => Or.inl ⟨rfl, by simp⟩
  | y :: ys, b => by
      simp only [List.foldl_cons]
      by_cases hy : f y < f b
      · rw [if_pos hy]
        exact Or.inr ⟨[], y, ys, by simp, hy, by simp, rfl⟩
      · rw [if_neg hy]
        rcases pyMinBy_foldl_cases f ys b with ⟨h1, h2⟩ | ⟨l1, z, l2, hys, hz, hge, heq⟩
        · refine Or.inl ⟨h1, ?_⟩
          intro z hz
          rcases List.mem_cons.mp hz with hz1 | hz1
          · exact hz1 ▸ hy
          · exact h2 z hz1
        · refine Or.inr ⟨y :: l1, z, l2, by rw [hys, List.cons_append], hz, ?_, heq⟩
          intro u hu
          rcases List.mem_cons.mp hu with hu1 | hu1
          · exact hu1 ▸ hy
          · exact hge u hu1

theorem pyMinBy_foldl_first (f : Nat → Int) :
    ∀ (n : Nat) (xs : List Nat) (b : Nat), xs.length ≤ n →
      ∃ l1 l2, b :: xs = l1 ++
        (xs.foldl (fun best y => if f y < f best then y else best) b) :: l2 ∧
        ∀ y ∈ l1, f (xs.foldl (fun best y => if f y < f best then y else best) b) < f y
  | 0, xs, b, hlen => by
      have hnil : xs = [] := List.length_eq_zero.mp (Nat.le_zero.mp hlen)
      subst hnil
      exact ⟨[], [], rfl, by simp⟩
  | n + 1, xs, b, hlen => by
      rcases pyMinBy_foldl_cases f xs b with ⟨h1, _⟩ | ⟨l1, y, l2, hxs, hlt, hge, heq⟩
      · rw [h1]
        exact ⟨[], xs, rfl, by simp⟩
      · have hlen2 : l2.length ≤ n := by
          subst hxs
          rw [List.length_append, List.length_cons] at hlen
          omega
        obtain ⟨m1, m2, hdec, hm⟩ := pyMinBy_foldl_first f n l2 y hlen2
        rw [heq]
        refine ⟨b :: l1 ++ m1, m2, ?_, ?_⟩
        · rw [hxs, hdec]
          simp
        · intro z hz
          have hrle := (pyMinBy_foldl_le f l2 y).1
          have hz3 : z = b ∨ z ∈ l1 ∨ z ∈ m1 := by simpa using hz
          rcases hz3 with hz1 | hz1 | hz1
          · calc f (l2.foldl (fun best y => if f y < f best then y else best) y)
                ≤ f y := hrle
              _ < f b := hlt
              _ = f z := by rw [hz1]
          · calc f (l2.foldl (fun best y => if f y < f best then y else best) y)
                ≤ f y := hrle
              _ < f b := hlt
              _ ≤ f z := not_lt.mp (hge z hz1)
          · exact hm z hz1

theorem pyMinBy_first {f : Nat → Int} {l : List Nat} {c : Nat}
    (h : pyMinBy f l = some c) :
    ∃ l1 l2, l = l1 ++ c :: l2 ∧ ∀ y ∈ l1, f c < f y := by
  cases l with
  | nil => simp [pyMinBy] at h
  | cons x xs =>
      simp only [pyMinBy, Option.some.injEq] at h
      obtain ⟨l1, l2, hdec, hm⟩ :=
        pyMinBy_foldl_first f xs.length xs x (le_refl _)
      rw [h] at hdec hm
      exact ⟨l1, l2, hdec, hm⟩

/-! ### Reducing the world-wide invariants to finite checks (used only to
discharge hypotheses on concrete worlds) -/

theorem ctypesNodupAll_of {w : World}
    (h : ∀ p ∈ w.ents, ((p.2).map ctype).Nodup) : CtypesNodupAll w := by
  intro a
  unfold ctypesOf getComps
  cases hl : lookupA w.ents a with
  | none => simp
  | some l => simpa using h (a, l) (lookupA_mem hl)

theorem hpLeMax_of {w : World}
    (h : ∀ p ∈ w.ents, ∀ c ∈ p.2,
      (match c with
       | Component.destructible m hh => decide (hh ≤ m)
       | _ => true) = true) : HpLeMax w := by
  intro a m hh hmem
  unfold getComps at hmem
  cases hl : lookupA w.ents a with
  | none => rw [hl] at hmem; simp at hmem
  | some l =>
      rw [hl] at hmem
      have := h (a, l) (lookupA_mem hl) _ (by simpa using hmem)
      simpa using this

theorem deadNoActor_of {w : World}
    (h : ∀ p ∈ w.ents,
      (p.2.any (fun c =>
        match c with
        | Component.destructible _ hh => decide (hh ≤ 0)
        | _ => false)) = true →
      p.2.find? (fun c2 => ctype c2 == CompType.actor) = none) :
    DeadNoActor w := by
  intro a hdead
  obtain ⟨m, hh, hmem, hle⟩ := hdead
  unfold hasActor get_component getComps
  unfold getComps at hmem
  cases hl : lookupA w.ents a with
  | none =>
      rw [hl] at hmem
      simp at hmem
  | some l =>
      rw [hl] at hmem
      simp only [Option.getD_some] at hmem ⊢
      have hany : (l.any (fun c =>
          match c with
          | Component.destructible _ hh => decide (hh ≤ 0)
          | _ => false)) = true := by
        rw [List.any_eq_true]
        refine ⟨_, hmem, ?_⟩
        simpa using hle
      rw [h (a, l) (lookupA_mem hl) hany]
      rfl

theorem indexInv_of {w : World}
    (h1 : ∀ t, ∀ a ∈ bucketGet w t, t ∈ ctypesOf w a)
    (h2 : ∀ p ∈ w.ents, ∀ t2 ∈ (p.2.map ctype), p.1 ∈ bucketGet w t2) :
    IndexInv w := by
  intro t a
  constructor
  · exact h1 t a
  · intro hm
    unfold ctypesOf getComps at hm
    cases hl : lookupA w.ents a with
    | none => rw [hl] at hm; simp at hm
    | some l =>
        rw [hl] at hm
        exact h2 (a, l) (lookupA_mem hl) t (by simpa using hm)

/-- A removed component class is gone: after `detach(e, t)` (when the
entity's classes were duplicate-free) the entity holds no component of
class `t`. -/
theorem detach_type_not_mem {w : World} {e : Nat} {t : CompType}
    (hnd : (ctypesOf w e).Nodup) :
    t ∉ ctypesOf (detach w e t) e := by
  cases hf : firstIdx (fun c0 => ctype c0 == t) (getComps w e) with
  | none =>
      have hd : detach w e t = w := by
        unfold detach
        rw [hf]
      rw [hd]
      intro hm
      obtain ⟨c0, hc0, hct0⟩ := List.mem_map.mp hm
      have h2 := firstIdx_none.mp hf c0 hc0
      simp [hct0] at h2
  | some j =>
      obtain ⟨c, hc, hpc⟩ := firstIdx_get hf
      rw [beq_iff_eq] at hpc
      have hex := entExists_of_get? hc
      have hd : detach w e t =
          bucketErase (setEnt w e ((getComps w e).eraseIdx j)) t e := by
        unfold detach
        rw [hf]
      have hctse : ctypesOf (detach w e t) e = (ctypesOf w e).eraseIdx j := by
        unfold ctypesOf
        rw [hd]
        simp only [getComps_bucketErase, getComps_setEnt_self hex]
        rw [list_eraseIdx_map]
      have hgetct : (ctypesOf w e).get? j = some t := by
        unfold ctypesOf
        rw [List.get?_map, hc]
        simp [hpc]
      rw [hctse]
      exact nodup_eraseIdx_not_mem hnd hgetct

/-- If the component visited at position `i` returned `None` (trace flag
`true`), every position the fold visited is `≤ i`: the fold stopped there. -/
theorem updateLoop_short_circuit (actF : World → Nat → World) :
    ∀ (fuel : Nat) (w : World) (e i0 : Nat) (ev : Event) (i j : Nat)
      (b : Bool),
      (i, true) ∈ (updateLoop actF fuel w e i0 ev).2.2 →
      (j, b) ∈ (updateLoop actF fuel w e i0 ev).2.2 → j ≤ i
  | 0, _, _, _, _, _, _, _, hi, _ => by simp [updateLoop] at hi
  | fuel + 1, w, e, i0, ev, i, j, b, hi, hj => by
      cases hg : (getComps w e).get? i0 with
      | none =>
          rw [updateLoop_succ_none actF fuel w e i0 ev hg] at hi
          simp at hi
      | some c =>
          cases hs : stepComp actF w e i0 c ev with
          | mk w1 r =>
              cases r with
              | none =>
                  rw [updateLoop_step_none actF fuel w w1 e i0 ev c hg hs]
                    at hi hj
                  simp only [List.mem_singleton, Prod.mk.injEq] at hi hj
                  omega
              | some ev1 =>
                  rw [updateLoop_step_some actF fuel w w1 e i0 ev ev1 c hg hs]
                    at hi hj
                  simp only [List.mem_cons, Prod.mk.injEq] at hi hj
                  rcases hi with ⟨_, hfalse⟩ | hi
                  · exact absurd hfalse.symm (by simp)
                  · rcases hj with ⟨hji, _⟩ | hj
                    · have h2 := updateLoop_trace_ge actF fuel w1 e (i0 + 1)
                        ev1 i true hi
                      omega
                    · exact updateLoop_short_circuit actF fuel w1 e (i0 + 1)
                        ev1 i j b hi hj

/-! ### The claims -/

/-- C1 counterexample: the spec's invariant `0 ≤ hp` fails.  From hp 3 of
10, an `Attack(5)` leaves hp at `-2`: `modify_hp` clamps only from above
(`min(hp + amount, max_hp)`), never at zero. -/
theorem c1_cex_attack_drives_hp_negative :
    getHp ((update WC1 0 (Event.attack 5)).1) 0 = some (-2) ∧
    ¬ (0 : Int) ≤ (-2 : Int) := by
  constructor
  · decide
  · decide

/-- C1 (amended): after every `Attack`/heal application, `hp ≤ max_hp`
holds — `modify_hp` clamps healing at `max_hp` and dead entities ignore
changes — but the lower bound `0 ≤ hp` is not maintained: a blow larger
than the remaining hp drives hp negative. -/
theorem c1_hp_le_max_invariant :
    (∀ (w : World) (e i : Nat) (m h a : Int),
        HpLeMax w → HpLeMax (modify_hp w e i m h a)) ∧
    (∀ (w : World) (e : Nat) (ev : Event),
        HpLeMax w → HpLeMax (update w e ev).1) :=
  ⟨fun _ _ _ _ _ _ hP => modify_hp_HpLeMax hP,
   fun _ _ _ hP => update_HpLeMax hP⟩

theorem c1_witness :
    HpLeMax WC1 ∧ HpLeMax (modify_hp WC1 0 0 10 3 (-5)) ∧
      HpLeMax (update WC1 0 (Event.attack 5)).1 := by
  have h : HpLeMax WC1 := hpLeMax_of (by decide)
  exact ⟨h, c1_hp_le_max_invariant.1 WC1 0 0 10 3 (-5) h,
    c1_hp_le_max_invariant.2 WC1 0 (Event.attack 5) h⟩

/-- C2 counterexample: `Destructible.update` has no `Turn` case, so a dead
entity's `Destructible` passes `Turn` through (it does not return
"nothing"), and the component after it (here a `Position` at index 1) is
still visited — the delivery trace of the full update is
`[(0, false), (1, false)]`, and the second entry refutes the claimed
short-circuit. -/
theorem c2_cex_dead_destructible_passes_turn :
    aliveE WC2 0 = false ∧
    stepComp berserkAct WC2 0 0 (Component.destructible 10 0) Event.turn =
      (WC2, some Event.turn) ∧
    update WC2 0 Event.turn = (WC2, none, [(0, false), (1, false)]) := by
  refine ⟨by decide, by decide, by decide⟩

/-- C2 (amended): `Destructible.update` passes `Turn` through unchanged
whether dead or alive; a dead entity nonetheless takes no action on its
turn because death already detached its `Actor` (the dead-entities-hold-no-
`Actor` invariant), so the whole `Turn` dispatch leaves the world unchanged
and reports no event. -/
theorem c2_dead_turn_passthrough_but_inert :
    (∀ (actF : World → Nat → World) (w : World) (e i : Nat) (m h : Int),
        stepComp actF w e i (Component.destructible m h) Event.turn =
          (w, some Event.turn)) ∧
    (∀ (w : World) (e : Nat), DeadNoActor w → deadE w e →
        (update w e Event.turn).1 = w ∧
        (update w e Event.turn).2.1 = none) := by
  constructor
  · intro actF w e i m h
    rfl
  · intro w e hinv hdead
    have hact : hasActor w e = false := hinv e hdead
    have hnoact : ∀ c ∈ (getComps w e).drop 0, ctype c ≠ CompType.actor := by
      intro c hc hcx
      have hmem : CompType.actor ∈ ctypesOf w e := by
        unfold ctypesOf
        exact hcx ▸ List.mem_map_of_mem ctype (by simpa using hc)
      have := hasActor_iff.mpr hmem
      rw [hact] at this
      exact absurd this (by simp)
    exact ⟨updateLoop_turn_noactor berserkAct _ w e 0 hnoact,
      updateLoop_ret_none berserkAct _ w e 0 .turn⟩

theorem c2_witness :
    DeadNoActor WC2 ∧ deadE WC2 0 ∧
      (update WC2 0 Event.turn).1 = WC2 ∧
      (update WC2 0 Event.turn).2.1 = none := by
  have h1 : DeadNoActor WC2 := deadNoActor_of (by decide)
  have h2 : deadE WC2 0 := ⟨10, 0, by decide, by decide⟩
  exact ⟨h1, h2, (c2_dead_turn_passthrough_but_inert.2 WC2 0 h1 h2).1,
    (c2_dead_turn_passthrough_but_inert.2 WC2 0 h1 h2).2⟩

/-- C4 counterexample: `Entity.update` falls off the end of its loop and
returns `None` even when no component short-circuited — the fold's final
event is discarded, refuting the claimed `event | nothing` return
contract. -/
theorem c4_cex_update_discards_final_event :
    update WC4 0 Event.turn = (WC4, none, [(0, false)]) ∧
    ¬ (update WC4 0 Event.turn).2.1 = some Event.turn := by
  refine ⟨by decide, by decide⟩

/-- C4 (amended): `entity.update(event)` folds the event through the
components in attachment order, but the call itself always reports no
event: the Python function either executes a bare `return` (short-circuit)
or falls off the end of the loop, returning `None` both ways; no caller
consumes a return value. -/
theorem c4_update_always_reports_nothing :
    ∀ (w : World) (e : Nat) (ev : Event), (update w e ev).2.1 = none :=
  fun w e ev => updateLoop_ret_none berserkAct _ w e 0 ev

/-- C5: the short-circuit law.  A trace entry `(i, true)` records that the
component at position `i` was visited and returned "nothing"; in that case
every visited position `j` satisfies `j ≤ i` — no component later in the
attachment order observes the event — and the overall call reports no
event. -/
theorem c5_short_circuit_law (w : World) (e : Nat) (ev : Event) (i j : Nat)
    (b : Bool)
    (hi : (i, true) ∈ (update w e ev).2.2)
    (hj : (j, b) ∈ (update w e ev).2.2) :
    j ≤ i ∧ (update w e ev).2.1 = none :=
  ⟨updateLoop_short_circuit berserkAct _ w e 0 ev i j b hi hj,
   updateLoop_ret_none berserkAct _ w e 0 ev⟩

theorem c5_witness :
    ((0, true) ∈ (update WC5 0 (Event.attack 3)).2.2) ∧
      (0 ≤ 0 ∧ (update WC5 0 (Event.attack 3)).2.1 = none) :=
  ⟨by decide,
   c5_short_circuit_law WC5 0 (Event.attack 3) 0 0 true (by decide) (by decide)⟩

/-- C7: with the oracle forcing hit / no-evasion samples, Attacker(1, 5)
against Defender + Destructible(10, 10): one attack leaves hp 5 (alive), a
second leaves hp 0 (dead), and any further `Attack`, whatever its damage,
leaves hp at 0 — dead entities ignore further damage. -/
theorem c7_fixed_randomness_two_attacks :
    getHp (attackF WC7 0 1) 1 = some 5 ∧
    aliveE (attackF WC7 0 1) 1 = true ∧
    getHp (attackF (attackF WC7 0 1) 0 1) 1 = some 0 ∧
    aliveE (attackF (attackF WC7 0 1) 0 1) 1 = false ∧
    ∀ dmg : Int,
      getHp ((update (attackF (attackF WC7 0 1) 0 1) 1 (Event.attack dmg)).1)
        1 = some 0 := by
  refine ⟨by decide, by decide, by decide, by decide, ?_⟩
  intro dmg
  rfl

/-- C9: death detaches `Actor`.  (a) Whenever `modify_hp` drops an alive
`Destructible` to `hp ≤ 0`, the very same call ends in
`detach(owner, Actor)`; (b) the well-formedness `WF9` — which contains
"every dead entity holds no `Actor`" — is preserved by every event
dispatch; (c) under `WF9`, a dead entity holds no `Actor` and does not
appear in `Entity.filter(Actor)`. -/
theorem c9_death_detaches_actor :
    (∀ (w : World) (e i : Nat) (m h a : Int), 0 < h → min (h + a) m ≤ 0 →
        modify_hp w e i m h a =
          detach (setComp w e i (Component.destructible m (min (h + a) m)))
            e CompType.actor) ∧
    (∀ (w : World) (e : Nat) (ev : Event), WF9 w → WF9 (update w e ev).1) ∧
    (∀ (w : World) (a : Nat), WF9 w → deadE w a →
        hasActor w a = false ∧ a ∉ filterE w CompType.actor) := by
  refine ⟨?_, ?_, ?_⟩
  · intro w e i m h a h1 h2
    unfold modify_hp
    rw [if_pos h1, if_pos h2]
  · intro w e ev hw
    exact update_WF9 hw
  · intro w a hw hdead
    obtain ⟨hct, hbn, hbs, hdna⟩ := hw
    have h1 := hdna a hdead
    refine ⟨h1, fun hmem => ?_⟩
    have h2 := hbs a hmem
    rw [h1] at h2
    exact absurd h2 (by simp)

theorem c9_witness :
    ((0 : Int) < 3 ∧ min ((3 : Int) + -5) 10 ≤ 0 ∧
      modify_hp WC9 1 1 10 3 (-5) =
        detach (setComp WC9 1 1 (Component.destructible 10 (min ((3 : Int) + -5) 10)))
          1 CompType.actor) ∧
    (WF9 WC9 ∧ WF9 (update WC9 0 Event.turn).1) ∧
    (deadE (update WC9 0 Event.turn).1 1 ∧
      hasActor (update WC9 0 Event.turn).1 1 = false ∧
      1 ∉ filterE (update WC9 0 Event.turn).1 CompType.actor) := by
  have hbn : BucketsNodup WC9 := by
    unfold BucketsNodup
    decide
  have hbs : BucketSound WC9 := by
    unfold BucketSound
    decide
  have hw : WF9 WC9 :=
    ⟨ctypesNodupAll_of (by decide), hbn, hbs, deadNoActor_of (by decide)⟩
  have hw2 : WF9 (update WC9 0 Event.turn).1 :=
    c9_death_detaches_actor.2.1 WC9 0 Event.turn hw
  have hdead2 : deadE (update WC9 0 Event.turn).1 1 :=
    ⟨10, -2, by decide, by decide⟩
  exact ⟨⟨by decide, by decide,
      c9_death_detaches_actor.1 WC9 1 1 10 3 (-5) (by decide) (by decide)⟩,
    ⟨hw, hw2⟩,
    ⟨hdead2, (c9_death_detaches_actor.2.2 _ 1 hw2 hdead2).1,
      (c9_death_detaches_actor.2.2 _ 1 hw2 hdead2).2⟩⟩

/-- C10: the constructor's `self.hp = hp or self.max_hp` treats an explicit
`hp = 0` as falsy, so `Destructible(max_hp, 0)` starts at `max_hp` — the
same as omitting the argument. -/
theorem c10_zero_hp_becomes_max :
    ∀ m : Int, mkDestructible m (some 0) = Component.destructible m m ∧
      mkDestructible m (some 0) = mkDestructible m none := by
  intro m
  constructor
  · simp [mkDestructible]
  · simp [mkDestructible]

/-- C6: `BerserkAI.act` with a nonempty set of living enemies.  The chosen
candidate `c` is a member of the enemy list attaining the minimum absolute
distance, and it is the *first* minimum encountered (everything before it
in the list is strictly farther).  If `|diff| = 1` the controller invokes
`Attacker.attack` on `c`; otherwise it sends `Move(x + sign diff)` to
itself via `update` — one step toward the candidate, not a jump. -/
theorem c6_berserk_moves_or_attacks (w : World) (me c : Nat) (x : Int)
    (hx : posOf w me = some x)
    (hne : enemiesOf w me ≠ [])
    (hmin : pyMinBy (fun y => |posD w y - x|) (enemiesOf w me) = some c)
    (hd : posD w c - x ≠ 0) :
    c ∈ enemiesOf w me ∧
    (∀ y ∈ enemiesOf w me, |posD w c - x| ≤ |posD w y - x|) ∧
    (∃ l1 l2, enemiesOf w me = l1 ++ c :: l2 ∧
      ∀ y ∈ l1, |posD w c - x| < |posD w y - x|) ∧
    (if |posD w c - x| = 1 then berserkAct w me = attackF w me c
     else berserkAct w me =
       (updateNoAct w me (Event.move (x + sign (posD w c - x)))).1) := by
  refine ⟨pyMinBy_mem hmin, pyMinBy_le hmin, pyMinBy_first hmin, ?_⟩
  by_cases h1 : |posD w c - x| = 1
  · rw [if_pos h1, berserkAct_eq_closest hne hx hmin, if_neg hd, if_pos h1]
  · rw [if_neg h1, berserkAct_eq_closest hne hx hmin, if_neg hd, if_neg h1]

theorem c6_witness :
    (posOf WC6 0 = some 0) ∧ (enemiesOf WC6 0 ≠ []) ∧
      (pyMinBy (fun y => |posD WC6 y - 0|) (enemiesOf WC6 0) = some 1) ∧
      (posD WC6 1 - 0 ≠ 0) ∧
      (1 ∈ enemiesOf WC6 0 ∧
        (∀ y ∈ enemiesOf WC6 0, |posD WC6 1 - 0| ≤ |posD WC6 y - 0|) ∧
        (∃ l1 l2, enemiesOf WC6 0 = l1 ++ 1 :: l2 ∧
          ∀ y ∈ l1, |posD WC6 1 - 0| < |posD WC6 y - 0|) ∧
        (if |posD WC6 1 - 0| = 1 then berserkAct WC6 0 = attackF WC6 0 1
         else berserkAct WC6 0 =
           (updateNoAct WC6 0 (Event.move (0 + sign (posD WC6 1 - 0)))).1)) ∧
      posOf (berserkAct WC6 0) 0 = some 1 :=
  ⟨by decide, by decide, by decide, by decide,
   c6_berserk_moves_or_attacks WC6 0 1 0 (by decide) (by decide) (by decide)
     (by decide),
   by decide⟩

/-- C8: the type-index invariant — an entity appears in the bucket for `T`
iff it currently holds an attached component of exactly class `T` — is
preserved by every valid sequence of `attach`/`detach` operations (validity
= at most one component per concrete class per entity); in particular,
`detach(entity, T)` leaves the entity outside the bucket for `T`. -/
theorem c8_type_index_invariant :
    (∀ (w : World) (ops : List Op), Inv8 w → opsValid w ops →
        Inv8 (applyOps w ops)) ∧
    (∀ (w : World) (e : Nat) (t : CompType), Inv8 w →
        e ∉ bucketGet (detach w e t) t) := by
  constructor
  · intro w ops
    induction ops generalizing w with
    | nil => exact fun h _ => h
    | cons op rest ih =>
        intro h hv
        cases op with
        | attachOp e c => exact ih (attach w e c) (attach_Inv8 hv.1 hv.2.1 h) hv.2.2
        | detachOp e t => exact ih (detach w e t) (detach_Inv8 h) hv
  · intro w e t h
    intro hmem
    obtain ⟨hidx2, hct2, hbn2⟩ := detach_Inv8 h
    exact detach_type_not_mem (h.2.1 e) ((hidx2 t e).mp hmem)

theorem c8_witness :
    Inv8 WC8 ∧ opsValid WC8 opsC8 ∧ Inv8 (applyOps WC8 opsC8) ∧
      0 ∉ bucketGet (detach WC8 0 CompType.nameable) CompType.nameable := by
  have h : Inv8 WC8 :=
    ⟨indexInv_of (by decide) (by decide), ctypesNodupAll_of (by decide),
     by unfold BucketsNodup; decide⟩
  have hv : opsValid WC8 opsC8 :=
    ⟨by unfold entExists; decide, by decide,
     by unfold entExists; decide, by decide, trivial⟩
  exact ⟨h, hv, c8_type_index_invariant.1 WC8 opsC8 h hv,
    c8_type_index_invariant.2 WC8 0 CompType.nameable h⟩

theorem c3_witness :
    ∃ w2 q2, schedStep WC3 [0, 1, 2] = SchedStepResult.next w2 q2 ∧
      ((∀ a, (ctypesOf w2 a).Nodup) ∧ q2.Nodup ∧
        ∀ x ∈ q2, hasActor w2 x = true) := by
  refine ⟨_, _, rfl, c3_scheduler_never_dispatches_actorless WC3 _ [0, 1, 2] _
    (ctypesNodupAll_of (by decide)) (by decide) (by decide) rfl⟩

end Murker
